import Mathlib

/-!
Shallow embedding of the Facebook Pages extraction pipeline
(`facebook_pages_pipeline.py`): JSON values, dict operations, the
daily-metrics flattener, the post enrichment transform, and the
post-metrics fan-out resource.
-/

/-- A JSON value as handled by the pipeline.  Object keys are strings
(as produced by JSON parsing); `null` also stands for Python `None`
returned by `dict.get` on a missing key. -/
inductive JVal where
  | null
  | bool (b : Bool)
  | num (n : Int)
  | str (s : String)
  | arr (elems : List JVal)
  | obj (fields : List (String × JVal))
  deriving Repr

mutual

/-- Boolean structural equality of JSON values. -/
def beqJ : JVal → JVal → Bool
  | .null, .null => true
  | .bool a, .bool b => a == b
  | .num a, .num b => a == b
  | .str a, .str b => a == b
  | .arr xs, .arr ys => beqArr xs ys
  | .obj xs, .obj ys => beqObj xs ys
  | _, _ => false

/-- Boolean equality of JSON arrays. -/
def beqArr : List JVal → List JVal → Bool
  | [], [] => true
  | x :: xs, y :: ys => beqJ x y && beqArr xs ys
  | _, _ => false

/-- Boolean equality of JSON object field lists. -/
def beqObj : List (String × JVal) → List (String × JVal) → Bool
  | [], [] => true
  | (k1, v1) :: xs, (k2, v2) :: ys => k1 == k2 && beqJ v1 v2 && beqObj xs ys
  | _, _ => false

end

mutual

def beqJ_eq : ∀ (a b : JVal), beqJ a b = true → a = b
  | .null, b, h => by cases b <;> simp_all [beqJ]
  | .bool a, b, h => by cases b <;> simp_all [beqJ]
  | .num a, b, h => by cases b <;> simp_all [beqJ]
  | .str a, b, h => by cases b <;> simp_all [beqJ]
  | .arr xs, b, h => by
      cases b <;> simp only [beqJ] at h
      case arr ys => exact congrArg JVal.arr (beqArr_eq xs ys h)
      all_goals exact absurd h (by simp)
  | .obj xs, b, h => by
      cases b <;> simp only [beqJ] at h
      case obj ys => exact congrArg JVal.obj (beqObj_eq xs ys h)
      all_goals exact absurd h (by simp)

def beqArr_eq : ∀ (xs ys : List JVal), beqArr xs ys = true → xs = ys
  | [], [], _ => rfl
  | [], _ :: _, h => by simp [beqArr] at h
  | _ :: _, [], h => by simp [beqArr] at h
  | x :: xs, y :: ys, h => by
      simp only [beqArr, Bool.and_eq_true] at h
      rw [beqJ_eq x y h.1, beqArr_eq xs ys h.2]

def beqObj_eq :
    ∀ (xs ys : List (String × JVal)), beqObj xs ys = true → xs = ys
  | [], [], _ => rfl
  | [], _ :: _, h => by simp [beqObj] at h
  | _ :: _, [], h => by simp [beqObj] at h
  | (k1, v1) :: xs, (k2, v2) :: ys, h => by
      simp only [beqObj, Bool.and_eq_true] at h
      rw [eq_of_beq h.1.1, beqJ_eq v1 v2 h.1.2, beqObj_eq xs ys h.2]

end

mutual

def beqJ_refl : ∀ (a : JVal), beqJ a a = true
  | .null => rfl
  | .bool a => by simp [beqJ]
  | .num a => by simp [beqJ]
  | .str a => by simp [beqJ]
  | .arr xs => by simpa [beqJ] using beqArr_refl xs
  | .obj xs => by simpa [beqJ] using beqObj_refl xs

def beqArr_refl : ∀ (xs : List JVal), beqArr xs xs = true
  | [] => rfl
  | x :: xs => by
      simp only [beqArr, Bool.and_eq_true]
      exact ⟨beqJ_refl x, beqArr_refl xs⟩

def beqObj_refl : ∀ (xs : List (String × JVal)), beqObj xs xs = true
  | [] => rfl
  | (k, v) :: xs => by
      simp only [beqObj, Bool.and_eq_true]
      exact ⟨⟨by simp, beqJ_refl v⟩, beqObj_refl xs⟩

end

instance : DecidableEq JVal := fun a b =>
  if h : beqJ a b = true then .isTrue (beqJ_eq a b h)
  else .isFalse (fun he => h (he ▸ beqJ_refl a))

/-- A JSON-style dict with string keys (posts, metric objects, value points). -/
abbrev Rec := List (String × JVal)

/-- A daily-metrics record: keys may be arbitrary values because the code
uses the raw result of `metric_response.get("name")` as a dict key. -/
abbrev DRec := List (JVal × JVal)

/-- The `metrics_by_date` accumulator: date string to record. -/
abbrev DDict := List (String × DRec)

/-- Python truthiness of a JSON value. -/
def truthy : JVal → Bool
  | .null => false
  | .bool b => b
  | .num n => n != 0
  | .str s => !s.isEmpty
  | .arr xs => !xs.isEmpty
  | .obj fs => !fs.isEmpty

/-- Lookup in an association list (Python `dict` access; keys are unique
in every dict the pipeline builds, so first match is the only match). -/
def alGet [DecidableEq κ] : List (κ × α) → κ → Option α
  | [], _ => none
  | p :: t, k => if p.1 = k then some p.2 else alGet t k

/-- Key membership test (Python `k in d`). -/
def alHas [DecidableEq κ] (l : List (κ × α)) (k : κ) : Bool :=
  (alGet l k).isSome

/-- Python `d[k] = v`: replace the value at the (unique) occurrence of
`k`, or append a new entry, preserving insertion order. -/
def alSet [DecidableEq κ] : List (κ × α) → κ → α → List (κ × α)
  | [], k, v => [(k, v)]
  | p :: t, k, v => if p.1 = k then (k, v) :: t else p :: alSet t k v

/-- Python `d.get(k, dflt)`. -/
def rget [DecidableEq κ] (l : List (κ × α)) (k : κ) (dflt : α) : α :=
  (alGet l k).getD dflt

/-- Models Python `s.replace('Z', '+00:00')` (all occurrences of the
one-character pattern). -/
def replaceZchars : List Char → List Char
  | [] => []
  | c :: t =>
    if c = 'Z' then '+' :: '0' :: '0' :: ':' :: '0' :: '0' :: replaceZchars t
    else c :: replaceZchars t

/-- String form of `replaceZchars`. -/
def replaceZ (s : String) : String := ⟨replaceZchars s.data⟩

/-- Fold a Python `for` loop whose body may raise: `none` models an
uncaught exception aborting the loop. -/
def foldOpt (f : α → β → Option α) : α → List β → Option α
  | a, [] => some a
  | a, b :: l =>
    match f a b with
    | some a' => foldOpt f a' l
    | none => none

/-- Map a per-item generator body that may raise (`none` = exception). -/
def mapOpt (f : β → Option α) : List β → Option (List α)
  | [] => some []
  | b :: l =>
    match f b with
    | some a => (mapOpt f l).map (a :: ·)
    | none => none

/-! Embedding of `daily_metrics_with_page_id` / `flatten_daily_metrics_inner`
(`facebook_pages_pipeline.py`, lines 130-204).  The stdlib timestamp parser
`datetime.fromisoformat(...).date().isoformat()` is abstracted as a parameter
`fromiso : String → Option String` (`none` models a raised parse error); the
code's `end_time.replace('Z', '+00:00')` is applied before calling it.
`pid` is the captured `page_id`, `now` the run's `datetime.now().isoformat()`. -/

/-- Group one value into `metrics_by_date`: initialize the date's record
with `page_id`/`date`/`_extracted_at` when absent, then store the metric
value under the raw metric name (lines 157-166). -/
def dictUpdate (pid now : String) (d : DDict) (ds : String) (name value : JVal) :
    DDict :=
  let r0 := match alGet d ds with
    | some r => r
    | none => [(.str "page_id", .str pid), (.str "date", .str ds),
               (.str "_extracted_at", .str now)]
  alSet d ds (alSet r0 name value)

/-- Process one value-point of a metric response (lines 145-166): skip the
point when `end_time` is falsy or fails to parse (the bare `except` catches
both a non-string `end_time` and a parse failure); `none` models the
uncaught exception raised when the value-point is not a dict. -/
def valStep (fromiso : String → Option String) (pid now : String) (name : JVal)
    (d : DDict) (ventry : JVal) : Option DDict :=
  match ventry with
  | .obj f =>
    let end_time := rget f "end_time" .null
    let value := rget f "value" .null
    if truthy end_time then
      match end_time with
      | .str s =>
        match fromiso (replaceZ s) with
        | some date_str => some (dictUpdate pid now d date_str name value)
        | none => some d
      | _ => some d
    else some d
  | _ => none

/-- Process one metric-response object (lines 139-166): read `name`,
`values` (default `[]`) and `period` (default `"day"`); when the period is
`"day"` and `values` is truthy, loop over the value-points.  `none` models
the exception raised on a non-dict item or a truthy non-list `values`. -/
def flattenStep (fromiso : String → Option String) (pid now : String)
    (d : DDict) (resp : JVal) : Option DDict :=
  match resp with
  | .obj fields =>
    let metric_name := rget fields "name" .null
    let values := rget fields "values" (.arr [])
    let period := rget fields "period" (.str "day")
    if period = .str "day" ∧ truthy values = true then
      match values with
      | .arr vs => foldOpt (valStep fromiso pid now metric_name) d vs
      | _ => none
    else some d
  | _ => none

/-- Catalog of known-but-possibly-absent daily metrics (`missing_metrics`,
lines 171-195), in source order. -/
def missing_metrics : List String :=
  ["page_negative_feedback",
   "page_impressions_organic",
   "page_fans_online_per_day",
   "page_places_checkin_total",
   "page_video_complete_views_30_s",
   "page_video_complete_views_30_s_autoplayed",
   "page_video_complete_views_30_s_click_to_play",
   "page_video_complete_views_30_s_organic",
   "page_video_complete_views_30_s_paid",
   "page_video_complete_views_30_s_repeat_views",
   "page_video_repeat_views",
   "page_video_view_time",
   "page_video_views_10_s",
   "page_video_views_10_s_autoplayed",
   "page_video_views_10_s_click_to_play",
   "page_video_views_10_s_organic",
   "page_video_views_10_s_paid",
   "page_video_views_10_s_repeat",
   "page_video_views_autoplayed",
   "page_video_views_click_to_play",
   "page_video_views_organic",
   "page_video_views_paid"]

/-- Union the catalog of missing metrics into a date record, only for
names not already present (lines 197-200). -/
def fillMissing (r : DRec) : DRec :=
  missing_metrics.foldl
    (fun acc k => if alHas acc (.str k) then acc else alSet acc (.str k) .null) r

/-- Whole flattener body (lines 133-202): fold the metric responses into
`metrics_by_date`, then emit one record per date with the missing-metric
catalog unioned in.  `none` models an uncaught exception. -/
def flatten_daily_metrics_inner (fromiso : String → Option String)
    (pid now : String) (items : List JVal) : Option (List DRec) :=
  match foldOpt (flattenStep fromiso pid now) [] items with
  | some d => some (d.map (fun p => fillMissing p.2))
  | none => none

/-! Embedding of `add_post_fields` (lines 218-229). -/

/-- Post enrichment for one item: read `id` with default `""`; when it
contains `'_'`, set `page_id` to `post_id.split("_")[0]` (the characters
before the first separator); always stamp `_extracted_at`.  `none` models
the `TypeError` raised by `"_" in post_id` on a non-string id. -/
def add_post_fields_item (now : String) (item : Rec) : Option Rec :=
  match rget item "id" (.str "") with
  | .str post_id =>
    let item1 :=
      if post_id.data.contains '_' then
        alSet item "page_id" (.str ⟨post_id.data.takeWhile (· ≠ '_')⟩)
      else item
    some (alSet item1 "_extracted_at" (.str now))
  | _ => none

/-- Stream form of the post enrichment transformer. -/
def add_post_fields (now : String) (items : List Rec) : Option (List Rec) :=
  mapOpt (add_post_fields_item now) items

/-! Embedding of `post_metrics_resource` (lines 232-363).  The listing call
is modelled by its result `posts` (`posts_data.get("data", [])`); the
per-post insights call is modelled by `fetch : JVal → Option (List Rec)`,
keyed by the post id, where `none` models a `requests.RequestException`
(caught by the handler at line 358) and `some ms` models
`response.json().get("data", [])` as a list of metric dicts.  `today` is
`datetime.now().date().isoformat()` and `now` is
`datetime.now().isoformat()`, both held fixed for the run. -/

/-- Catalog of preset post-metric columns of `base_record`
(lines 294-332), in source order. -/
def post_metrics_catalog : List String :=
  ["post_clicks",
   "post_engaged_fan",
   "post_engaged_users",
   "post_impressions",
   "post_impressions_fan",
   "post_impressions_nonviral",
   "post_impressions_organic",
   "post_impressions_paid",
   "post_impressions_viral",
   "post_negative_feedback",
   "post_reactions_anger_total",
   "post_reactions_haha_total",
   "post_reactions_like_total",
   "post_reactions_love_total",
   "post_reactions_sorry_total",
   "post_reactions_wow_total",
   "post_video_avg_time_watched",
   "post_video_complete_views_30_s_autoplayed",
   "post_video_complete_views_30_s_clicked_to_play",
   "post_video_complete_views_30_s_organic",
   "post_video_complete_views_30_s_paid",
   "post_video_complete_views_organic",
   "post_video_complete_views_paid",
   "post_video_length",
   "post_video_view_time",
   "post_video_view_time_organic",
   "post_video_views",
   "post_video_views_10_s",
   "post_video_views_10_s_autoplayed",
   "post_video_views_10_s_clicked_to_play",
   "post_video_views_10_s_organic",
   "post_video_views_10_s_paid",
   "post_video_views_10_s_sound_on",
   "post_video_views_15_s",
   "post_video_views_autoplayed",
   "post_video_views_clicked_to_play",
   "post_video_views_organic",
   "post_video_views_paid",
   "post_video_views_sound_on"]

/-- Derive the record's `date` from `created_time` (lines 279-286): a
truthy string that parses gives its date; everything else (falsy value,
non-string, parse failure — the bare `except` catches the raised errors)
falls back to today's date. -/
def deriveDate (fromiso : String → Option String) (today : String)
    (created : JVal) : String :=
  if truthy created then
    match created with
    | .str s =>
      match fromiso (replaceZ s) with
      | some d => d
      | none => today
    | _ => today
  else today

/-- Construct `base_record` (lines 289-333): `post_id`, `date`,
`_extracted_at`, then every preset metric column initialized to null. -/
def baseRecord (post_id : JVal) (date_str now : String) : Rec :=
  ("post_id", post_id) :: ("date", .str date_str) ::
    ("_extracted_at", .str now) :: post_metrics_catalog.map (fun k => (k, .null))

/-- Apply one returned metric dict to the record (lines 348-356): when
`values` is truthy and non-empty, take the first value-point's `value` and
overwrite the record's entry only if the metric name is one of its keys
(a non-string name is never a key).  `none` models the exception raised on
a truthy non-list `values` or a non-dict first value-point, which the
`requests.RequestException` handler does not catch. -/
def updPost (r : Rec) (m : Rec) : Option Rec :=
  let metric_name := rget m "name" .null
  let metric_values := rget m "values" (.arr [])
  if truthy metric_values then
    match metric_values with
    | .arr (v0 :: _) =>
      match v0 with
      | .obj f =>
        let metric_value := rget f "value" .null
        match metric_name with
        | .str k => if alHas r k then some (alSet r k metric_value) else some r
        | _ => some r
      | _ => none
    | _ => none
  else some r

/-- Process one listed post (lines 274-363): read `post["id"]` (`none`
models the `KeyError` when absent), derive the date, build the base
record, fetch the per-post metrics and fold them in; a transport failure
(`fetch _ = none`) is caught and the base record is emitted unchanged. -/
def processPost (fromiso : String → Option String) (today now : String)
    (fetch : JVal → Option (List Rec)) (post : Rec) : Option Rec :=
  match alGet post "id" with
  | none => none
  | some post_id =>
    let date_str := deriveDate fromiso today (rget post "created_time" .null)
    let base := baseRecord post_id date_str now
    match fetch post_id with
    | none => some base
    | some ms => foldOpt updPost base ms

/-- Whole fan-out resource (lines 274-363): one emitted record per listed
post, in order; `none` models an uncaught exception aborting the
generator. -/
def post_metrics_resource (fromiso : String → Option String) (today now : String)
    (fetch : JVal → Option (List Rec)) (posts : List Rec) : Option (List Rec) :=
  mapOpt (processPost fromiso today now fetch) posts

/-- Well-formedness of one returned metric dict: its `values` field is
falsy, or is a non-empty list whose first element is a dict — exactly the
condition under which `updPost` cannot raise. -/
def metricOk (m : Rec) : Bool :=
  match rget m "values" (.arr []) with
  | .arr (v0 :: _) =>
    match v0 with
    | .obj _ => true
    | _ => false
  | .arr [] => true
  | w => !truthy w


/-! Proof infrastructure: the flattener fold normalized to a list of
`(date, name, value)` write operations. -/

/-- One grouping operation performed by the flattener. -/
abbrev Wrt := String × JVal × JVal

/-- Apply one write to `metrics_by_date`. -/
def applyWrite (pid now : String) (d : DDict) (w : Wrt) : DDict :=
  dictUpdate pid now d w.1 w.2.1 w.2.2

/-- Apply a sequence of writes in order. -/
def applyWrites (pid now : String) (d : DDict) (ws : List Wrt) : DDict :=
  ws.foldl (applyWrite pid now) d

/-- Writes contributed by one value-point: none on the raising case of
`valStep`, an empty list on a skipped point. -/
def pointWrites (fromiso : String → Option String) (name : JVal)
    (ventry : JVal) : Option (List Wrt) :=
  match ventry with
  | .obj f =>
    let end_time := rget f "end_time" .null
    if truthy end_time then
      match end_time with
      | .str s =>
        match fromiso (replaceZ s) with
        | some date_str => some [(date_str, name, rget f "value" .null)]
        | none => some []
      | _ => some []
    else some []
  | _ => none

/-- Writes contributed by a list of value-points. -/
def valsWrites (fromiso : String → Option String) (name : JVal) :
    List JVal → Option (List Wrt)
  | [] => some []
  | v :: vs =>
    match pointWrites fromiso name v with
    | some ws =>
      match valsWrites fromiso name vs with
      | some ws' => some (ws ++ ws')
      | none => none
    | none => none

/-- Writes contributed by one metric-response object. -/
def itemWrites (fromiso : String → Option String) (resp : JVal) :
    Option (List Wrt) :=
  match resp with
  | .obj fields =>
    let metric_name := rget fields "name" .null
    let values := rget fields "values" (.arr [])
    let period := rget fields "period" (.str "day")
    if period = .str "day" ∧ truthy values = true then
      match values with
      | .arr vs => valsWrites fromiso metric_name vs
      | _ => none
    else some []
  | _ => none

/-- Writes contributed by a stream of metric-response objects. -/
def allWrites (fromiso : String → Option String) :
    List JVal → Option (List Wrt)
  | [] => some []
  | it :: l =>
    match itemWrites fromiso it with
    | some ws =>
      match allWrites fromiso l with
      | some ws' => some (ws ++ ws')
      | none => none
    | none => none

/-- Value stored at a (date, name) cell of `metrics_by_date`. -/
def cellVal (d : DDict) (ds : String) (n : JVal) : Option JVal :=
  match alGet d ds with
  | some r => alGet r n
  | none => none

/-- Two records that agree everywhere except possibly in the value at the
first occurrence of key `n`. -/
inductive RecExcept (n : JVal) : DRec → DRec → Prop
  | refl (r) : RecExcept n r r
  | head (v1 v2 t) : RecExcept n ((n, v1) :: t) ((n, v2) :: t)
  | cons (p t1 t2) (h : p.1 ≠ n) (ht : RecExcept n t1 t2) :
      RecExcept n (p :: t1) (p :: t2)

/-- Two `metrics_by_date` dicts that agree everywhere except possibly in the
value at cell `(ds, n)` (at the first occurrence of date `ds`). -/
inductive DictExcept (ds : String) (n : JVal) : DDict → DDict → Prop
  | refl (d) : DictExcept ds n d d
  | head (r1 r2 t) (h : RecExcept n r1 r2) :
      DictExcept ds n ((ds, r1) :: t) ((ds, r2) :: t)
  | cons (p t1 t2) (h : p.1 ≠ ds) (ht : DictExcept ds n t1 t2) :
      DictExcept ds n (p :: t1) (p :: t2)

/-! Concrete inputs used by witnesses and counterexamples. -/

/-- Concrete stand-in for the ISO-8601 parse-to-date function. -/
def isoStub : String → Option String := fun s =>
  if s = "2024-01-05T10:00:00+00:00" then some "2024-01-05"
  else if s = "2024-01-02T00:00:00+00:00" then some "2024-01-02"
  else none

/-- Metric-response object with no `period` field. -/
def periodlessItem : JVal :=
  .obj [("name", .str "m"),
        ("values", .arr [.obj [("end_time", .str "2024-01-02T00:00:00Z"),
                               ("value", .num 7)]])]

/-- Concrete listed post. -/
def post0 : Rec :=
  [("id", .str "111_222"), ("created_time", .str "2024-01-05T10:00:00Z")]

/-- Concrete listed post without a `created_time`. -/
def post1 : Rec := [("id", .str "111_333")]

/-- Per-post metrics call whose successful response carries metrics named
after the record's identity fields. -/
def fetchIdentity : JVal → Option (List Rec) := fun _ =>
  some [[("name", .str "post_id"), ("values", .arr [.obj [("value", .str "EVIL")]])],
        [("name", .str "date"), ("values", .arr [.obj [("value", .str "1999-12-31")]])],
        [("name", .str "_extracted_at"), ("values", .arr [.obj [("value", .str "T9")]])]]

/-- Per-post metrics call returning one ordinary metric. -/
def fetchClicks : JVal → Option (List Rec) := fun _ =>
  some [[("name", .str "post_clicks"), ("values", .arr [.obj [("value", .num 5)]])]]

/-- Per-post metrics call failing (transport error) exactly for the post
id "111_222" and succeeding for every other post. -/
def fetchFailX : JVal → Option (List Rec) := fun pid =>
  if pid = .str "111_222" then none else fetchClicks pid

/-- Metric-response object with a duplicated value-point for one date. -/
def lwwItem : JVal :=
  .obj [("name", .str "m"), ("period", .str "day"),
        ("values", .arr
          [.obj [("end_time", .str "2024-01-02T00:00:00Z"), ("value", .num 1)],
           .obj [("end_time", .str "2024-01-02T00:00:00Z"), ("value", .num 2)]])]

/-! Generic lemmas about the dict operations. -/

theorem alGet_alSet_self [DecidableEq κ] (l : List (κ × α)) (k : κ) (v : α) :
    alGet (alSet l k v) k = some v := by
  induction l with
  | nil => simp [alSet, alGet]
  | cons p t ih =>
    by_cases h : p.1 = k
    · simp [alSet, h, alGet]
    · simp [alSet, h, alGet, ih]

theorem alGet_alSet_ne [DecidableEq κ] (l : List (κ × α)) (k k' : κ) (v : α)
    (h : k' ≠ k) : alGet (alSet l k v) k' = alGet l k' := by
  induction l with
  | nil => simp [alSet, alGet, Ne.symm h]
  | cons p t ih =>
    by_cases hp : p.1 = k
    · subst hp
      simp [alSet, alGet, Ne.symm h]
    · simp only [alSet, if_neg hp]
      by_cases hk' : p.1 = k'
      · simp [alGet, hk']
      · simp [alGet, hk', ih]

theorem alHas_alSet [DecidableEq κ] (l : List (κ × α)) (k k' : κ) (v : α) :
    alHas (alSet l k v) k' = (decide (k' = k) || alHas l k') := by
  by_cases h : k' = k
  · subst h
    simp [alHas, alGet_alSet_self]
  · simp [alHas, alGet_alSet_ne l k k' v h, h]

theorem alSet_self [DecidableEq κ] (l : List (κ × α)) (k : κ) (v : α)
    (h : alGet l k = some v) : alSet l k v = l := by
  induction l with
  | nil => simp [alGet] at h
  | cons p t ih =>
    by_cases hp : p.1 = k
    · subst hp
      simp only [alGet, if_pos rfl] at h
      cases h
      simp [alSet]
    · simp only [alGet, if_neg hp] at h
      simp [alSet, hp, ih h]

theorem alHas_true_iff [DecidableEq κ] (l : List (κ × α)) (k : κ) :
    alHas l k = true ↔ ∃ v, alGet l k = some v := by
  simp [alHas, Option.isSome_iff_exists]

theorem alGet_append [DecidableEq κ] (l1 l2 : List (κ × α)) (k : κ) :
    alGet (l1 ++ l2) k =
      match alGet l1 k with
      | some v => some v
      | none => alGet l2 k := by
  induction l1 with
  | nil => simp [alGet]
  | cons p t ih =>
    by_cases hp : p.1 = k <;> simp [alGet, hp, ih]

/-! Lemmas about the exception-aware loop combinators. -/

theorem foldOpt_append (f : α → β → Option α) (a : α) (l1 l2 : List β) :
    foldOpt f a (l1 ++ l2) =
      match foldOpt f a l1 with
      | some a' => foldOpt f a' l2
      | none => none := by
  induction l1 generalizing a with
  | nil => simp [foldOpt]
  | cons b t ih =>
    simp only [List.cons_append, foldOpt]
    cases f a b <;> simp [ih]

theorem mapOpt_length (f : β → Option α) (l : List β) (out : List α)
    (h : mapOpt f l = some out) : out.length = l.length := by
  induction l generalizing out with
  | nil => simp [mapOpt] at h; simp [← h]
  | cons b t ih =>
    simp only [mapOpt] at h
    cases hb : f b with
    | none => simp [hb] at h
    | some a =>
      simp only [hb] at h
      cases ht : mapOpt f t with
      | none => simp [ht] at h
      | some o =>
        simp only [ht, Option.map_some'] at h
        cases h
        simp [ih o ht]

theorem mapOpt_isSome (f : β → Option α) (l : List β)
    (h : ∀ b ∈ l, (f b).isSome = true) : ∃ out, mapOpt f l = some out := by
  induction l with
  | nil => exact ⟨[], rfl⟩
  | cons b t ih =>
    obtain ⟨a, ha⟩ := Option.isSome_iff_exists.mp (h b (by simp))
    obtain ⟨o, ho⟩ := ih (fun x hx => h x (by simp [hx]))
    exact ⟨a :: o, by simp [mapOpt, ha, ho]⟩

theorem mapOpt_congr (f g : β → Option α) (l : List β)
    (h : ∀ b ∈ l, f b = g b) : mapOpt f l = mapOpt g l := by
  induction l with
  | nil => rfl
  | cons b t ih =>
    simp only [mapOpt, h b (by simp), ih (fun x hx => h x (by simp [hx]))]

theorem mapOpt_append (f : β → Option α) (l1 l2 : List β) :
    mapOpt f (l1 ++ l2) =
      match mapOpt f l1, mapOpt f l2 with
      | some o1, some o2 => some (o1 ++ o2)
      | _, _ => none := by
  induction l1 with
  | nil =>
    simp only [List.nil_append, mapOpt]
    cases mapOpt f l2 <;> simp
  | cons b t ih =>
    simp only [List.cons_append, mapOpt, ih]
    cases hb : f b with
    | none => simp
    | some a =>
      cases h1 : mapOpt f t with
      | none => simp [ih, h1]
      | some o1 =>
        cases h2 : mapOpt f l2 <;> simp [ih, h1, h2]

theorem mapOpt_mem (f : β → Option α) (l : List β) (out : List α)
    (h : mapOpt f l = some out) (r : α) (hr : r ∈ out) :
    ∃ b ∈ l, f b = some r := by
  induction l generalizing out with
  | nil => simp [mapOpt] at h; subst h; simp at hr
  | cons b t ih =>
    simp only [mapOpt] at h
    cases hb : f b with
    | none => simp [hb] at h
    | some a =>
      simp only [hb] at h
      cases ht : mapOpt f t with
      | none => simp [ht] at h
      | some o =>
        simp only [ht, Option.map_some'] at h
        cases h
        rcases List.mem_cons.mp hr with h1 | h2
        · exact ⟨b, by simp, by simp [hb, h1]⟩
        · obtain ⟨x, hx, hfx⟩ := ih o ht h2
          exact ⟨x, by simp [hx], hfx⟩

/-! Normalization: the flattener fold equals applying the extracted
write sequence. -/

theorem applyWrites_append (pid now : String) (d : DDict) (ws ws' : List Wrt) :
    applyWrites pid now d (ws ++ ws') =
      applyWrites pid now (applyWrites pid now d ws) ws' := by
  simp [applyWrites, List.foldl_append]

theorem valStep_eq_pointWrites (fromiso : String → Option String)
    (pid now : String) (name : JVal) (d : DDict) (v : JVal) :
    valStep fromiso pid now name d v =
      (pointWrites fromiso name v).map (applyWrites pid now d) := by
  cases v with
  | obj f =>
    by_cases ht : truthy (rget f "end_time" JVal.null) = true
    · cases he : rget f "end_time" JVal.null with
      | str s =>
        rw [he] at ht
        cases hf : fromiso (replaceZ s) with
        | some ds =>
          simp [valStep, pointWrites, he, ht, hf, applyWrites, applyWrite]
        | none => simp [valStep, pointWrites, he, ht, hf, applyWrites]
      | null => simp [valStep, pointWrites, he, applyWrites]
      | bool b =>
        rw [he] at ht
        simp [valStep, pointWrites, he, ht, applyWrites]
      | num n =>
        rw [he] at ht
        simp [valStep, pointWrites, he, ht, applyWrites]
      | arr xs =>
        rw [he] at ht
        simp [valStep, pointWrites, he, ht, applyWrites]
      | obj fs =>
        rw [he] at ht
        simp [valStep, pointWrites, he, ht, applyWrites]
    · simp [valStep, pointWrites, ht, applyWrites]
  | null => rfl
  | bool b => rfl
  | num n => rfl
  | str s => rfl
  | arr xs => rfl

theorem foldOpt_valStep_eq (fromiso : String → Option String)
    (pid now : String) (name : JVal) (d : DDict) (vs : List JVal) :
    foldOpt (valStep fromiso pid now name) d vs =
      (valsWrites fromiso name vs).map (applyWrites pid now d) := by
  induction vs generalizing d with
  | nil => rfl
  | cons v t ih =>
    simp only [foldOpt, valsWrites, valStep_eq_pointWrites]
    cases hp : pointWrites fromiso name v with
    | none => rfl
    | some ws =>
      simp only [Option.map_some']
      rw [ih]
      cases hv : valsWrites fromiso name t with
      | none => rfl
      | some ws' => simp [applyWrites_append]

theorem flattenStep_eq_itemWrites (fromiso : String → Option String)
    (pid now : String) (d : DDict) (resp : JVal) :
    flattenStep fromiso pid now d resp =
      (itemWrites fromiso resp).map (applyWrites pid now d) := by
  cases resp with
  | obj fields =>
    by_cases hc : rget fields "period" (JVal.str "day") = JVal.str "day" ∧
        truthy (rget fields "values" (JVal.arr [])) = true
    · obtain ⟨hc1, hc2⟩ := hc
      cases hv : rget fields "values" (JVal.arr []) with
      | arr vs =>
        rw [hv] at hc2
        simp [flattenStep, itemWrites, hc1, hc2, hv, foldOpt_valStep_eq]
      | null => rw [hv] at hc2; simp [truthy] at hc2
      | bool b =>
        rw [hv] at hc2
        simp [flattenStep, itemWrites, hc1, hc2, hv]
      | num n =>
        rw [hv] at hc2
        simp [flattenStep, itemWrites, hc1, hc2, hv]
      | str s =>
        rw [hv] at hc2
        simp [flattenStep, itemWrites, hc1, hc2, hv]
      | obj fs =>
        rw [hv] at hc2
        simp [flattenStep, itemWrites, hc1, hc2, hv]
    · simp [flattenStep, itemWrites, hc, applyWrites]
  | null => rfl
  | bool b => rfl
  | num n => rfl
  | str s => rfl
  | arr xs => rfl

theorem foldOpt_flattenStep_eq (fromiso : String → Option String)
    (pid now : String) (d : DDict) (items : List JVal) :
    foldOpt (flattenStep fromiso pid now) d items =
      (allWrites fromiso items).map (applyWrites pid now d) := by
  induction items generalizing d with
  | nil => rfl
  | cons it l ih =>
    simp only [foldOpt, allWrites, flattenStep_eq_itemWrites]
    cases hi : itemWrites fromiso it with
    | none => rfl
    | some ws =>
      simp only [Option.map_some']
      rw [ih]
      cases ha : allWrites fromiso l with
      | none => rfl
      | some ws' => simp [applyWrites_append]

theorem valsWrites_append (fromiso : String → Option String) (name : JVal)
    (l1 l2 : List JVal) :
    valsWrites fromiso name (l1 ++ l2) =
      match valsWrites fromiso name l1, valsWrites fromiso name l2 with
      | some w1, some w2 => some (w1 ++ w2)
      | _, _ => none := by
  induction l1 with
  | nil =>
    cases h2 : valsWrites fromiso name l2 <;> simp [valsWrites, h2]
  | cons v t ih =>
    simp only [List.cons_append, valsWrites, ih]
    cases hp : pointWrites fromiso name v with
    | none => rfl
    | some ws =>
      cases h1 : valsWrites fromiso name t with
      | none => simp [ih, h1]
      | some w1 =>
        cases h2 : valsWrites fromiso name l2 <;> simp [ih, h1, h2]

theorem allWrites_append (fromiso : String → Option String)
    (l1 l2 : List JVal) :
    allWrites fromiso (l1 ++ l2) =
      match allWrites fromiso l1, allWrites fromiso l2 with
      | some w1, some w2 => some (w1 ++ w2)
      | _, _ => none := by
  induction l1 with
  | nil =>
    cases h2 : allWrites fromiso l2 <;> simp [allWrites, h2]
  | cons it t ih =>
    simp only [List.cons_append, allWrites, ih]
    cases hi : itemWrites fromiso it with
    | none => rfl
    | some ws =>
      cases h1 : allWrites fromiso t with
      | none => simp [ih, h1]
      | some w1 =>
        cases h2 : allWrites fromiso l2 <;> simp [ih, h1, h2]

/-! Machinery for idempotence of the grouping fold. -/

theorem recExcept_set_eq {n : JVal} {r1 r2 : DRec} (h : RecExcept n r1 r2)
    (v : JVal) : alSet r1 n v = alSet r2 n v := by
  induction h with
  | refl r => rfl
  | head v1 v2 t => simp [alSet]
  | cons p t1 t2 hp ht ih => simp [alSet, hp, ih]

theorem recExcept_set_ne {n : JVal} {r1 r2 : DRec} (h : RecExcept n r1 r2)
    (k v : JVal) (hk : k ≠ n) : RecExcept n (alSet r1 k v) (alSet r2 k v) := by
  induction h with
  | refl r => exact .refl _
  | head v1 v2 t =>
    simp only [alSet, if_neg (Ne.symm hk)]
    exact .head v1 v2 (alSet t k v)
  | cons p t1 t2 hp ht ih =>
    by_cases hpk : p.1 = k
    · simp only [alSet, if_pos hpk]
      exact .cons (k, v) t1 t2 hk ht
    · simp only [alSet, if_neg hpk]
      exact .cons p _ _ hp ih

theorem recExcept_get_ne {n : JVal} {r1 r2 : DRec} (h : RecExcept n r1 r2)
    (k : JVal) (hk : k ≠ n) : alGet r1 k = alGet r2 k := by
  induction h with
  | refl r => rfl
  | head v1 v2 t => simp [alGet, Ne.symm hk]
  | cons p t1 t2 hp ht ih => by_cases hpk : p.1 = k <;> simp [alGet, hpk, ih]

theorem recExcept_has_eq {n : JVal} {r1 r2 : DRec} (h : RecExcept n r1 r2)
    (k : JVal) : alHas r1 k = alHas r2 k := by
  induction h with
  | refl r => rfl
  | head v1 v2 t => by_cases hnk : n = k <;> simp [alHas, alGet, hnk]
  | cons p t1 t2 hp ht ih =>
    by_cases hpk : p.1 = k <;> simp [alHas, alGet, hpk]
    simpa [alHas] using ih

theorem recExcept_alSet_left (n v : JVal) (r : DRec) (h : alHas r n = true) :
    RecExcept n (alSet r n v) r := by
  induction r with
  | nil => simp [alHas, alGet] at h
  | cons p t ih =>
    obtain ⟨pk, pv⟩ := p
    by_cases hp : pk = n
    · subst hp
      simp only [alSet, if_pos rfl]
      exact .head v pv t
    · simp only [alSet, if_neg hp]
      simp only [alHas, alGet, if_neg hp] at h
      exact .cons (pk, pv) _ _ hp (ih h)

theorem dictExcept_alSet_of_recExcept (ds : String) (n : JVal) {r1 r2 : DRec}
    (hr : RecExcept n r1 r2) : ∀ d : DDict,
    DictExcept ds n (alSet d ds r1) (alSet d ds r2)
  | [] => by
    simp only [alSet]
    exact .head r1 r2 [] hr
  | p :: t => by
    by_cases hp : p.1 = ds
    · simp only [alSet, if_pos hp]
      exact .head r1 r2 t hr
    · simp only [alSet, if_neg hp]
      exact .cons p _ _ hp (dictExcept_alSet_of_recExcept ds n hr t)

theorem dictExcept_set_eq {ds : String} {n : JVal} {d1 d2 : DDict}
    (h : DictExcept ds n d1 d2) (r : DRec) : alSet d1 ds r = alSet d2 ds r := by
  induction h with
  | refl d => rfl
  | head r1 r2 t hr => simp [alSet]
  | cons p t1 t2 hp ht ih => simp [alSet, hp, ih]

theorem dictExcept_set_ne {ds : String} {n : JVal} {d1 d2 : DDict}
    (h : DictExcept ds n d1 d2) (k : String) (r : DRec) (hk : k ≠ ds) :
    DictExcept ds n (alSet d1 k r) (alSet d2 k r) := by
  induction h with
  | refl d => exact .refl _
  | head r1 r2 t hr =>
    simp only [alSet, if_neg (Ne.symm hk)]
    exact .head r1 r2 _ hr
  | cons p t1 t2 hp ht ih =>
    by_cases hpk : p.1 = k
    · simp only [alSet, if_pos hpk]
      exact .cons (k, r) t1 t2 hk ht
    · simp only [alSet, if_neg hpk]
      exact .cons p _ _ hp ih

theorem dictExcept_set_rel {ds : String} {n : JVal} {d1 d2 : DDict}
    (h : DictExcept ds n d1 d2) {r1 r2 : DRec} (hr : RecExcept n r1 r2) :
    DictExcept ds n (alSet d1 ds r1) (alSet d2 ds r2) := by
  induction h with
  | refl d => exact dictExcept_alSet_of_recExcept ds n hr d
  | head ra rb t hab =>
    simp only [alSet, if_pos rfl]
    exact .head r1 r2 t hr
  | cons p t1 t2 hp ht ih =>
    simp only [alSet, if_neg hp]
    exact .cons p _ _ hp ih

theorem dictExcept_get_ne {ds : String} {n : JVal} {d1 d2 : DDict}
    (h : DictExcept ds n d1 d2) (k : String) (hk : k ≠ ds) :
    alGet d1 k = alGet d2 k := by
  induction h with
  | refl d => rfl
  | head r1 r2 t hr => simp [alGet, Ne.symm hk]
  | cons p t1 t2 hp ht ih => by_cases hpk : p.1 = k <;> simp [alGet, hpk, ih]

theorem dictExcept_get_at {ds : String} {n : JVal} {d1 d2 : DDict}
    (h : DictExcept ds n d1 d2) :
    (alGet d1 ds = none ∧ d1 = d2) ∨
      ∃ r1 r2, alGet d1 ds = some r1 ∧ alGet d2 ds = some r2 ∧
        RecExcept n r1 r2 := by
  induction h with
  | refl d =>
    cases hg : alGet d ds with
    | none => exact .inl ⟨rfl, rfl⟩
    | some r => exact .inr ⟨r, r, rfl, rfl, .refl r⟩
  | head r1 r2 t hr =>
    exact .inr ⟨r1, r2, by simp [alGet], by simp [alGet], hr⟩
  | cons p t1 t2 hp ht ih =>
    rcases ih with ⟨h1, h2⟩ | ⟨r1, r2, h1, h2, hr⟩
    · exact .inl ⟨by simp [alGet, hp, h1], by rw [h2]⟩
    · exact .inr ⟨r1, r2, by simp [alGet, hp, h1], by simp [alGet, hp, h2], hr⟩

theorem dictExcept_update_same {ds : String} {n : JVal} {d1 d2 : DDict}
    (pid now : String) (h : DictExcept ds n d1 d2) (v : JVal) :
    dictUpdate pid now d1 ds n v = dictUpdate pid now d2 ds n v := by
  rcases dictExcept_get_at h with ⟨h1, h2⟩ | ⟨r1, r2, h1, h2, hr⟩
  · rw [h2]
  · simp only [dictUpdate, h1, h2]
    rw [recExcept_set_eq hr v]
    exact dictExcept_set_eq h _

theorem dictExcept_update_other_name {ds : String} {n : JVal} {d1 d2 : DDict}
    (pid now : String) (h : DictExcept ds n d1 d2) (n' v : JVal) (hn : n' ≠ n) :
    DictExcept ds n (dictUpdate pid now d1 ds n' v)
      (dictUpdate pid now d2 ds n' v) := by
  rcases dictExcept_get_at h with ⟨h1, h2⟩ | ⟨r1, r2, h1, h2, hr⟩
  · rw [h2]
    exact .refl _
  · simp only [dictUpdate, h1, h2]
    exact dictExcept_set_rel h (recExcept_set_ne hr n' v hn)

theorem dictExcept_update_other_date {ds : String} {n : JVal} {d1 d2 : DDict}
    (pid now : String) (h : DictExcept ds n d1 d2) (ds' : String) (n' v : JVal)
    (hd : ds' ≠ ds) :
    DictExcept ds n (dictUpdate pid now d1 ds' n' v)
      (dictUpdate pid now d2 ds' n' v) := by
  have hg : alGet d1 ds' = alGet d2 ds' := dictExcept_get_ne h ds' hd
  simp only [dictUpdate, hg]
  cases hgg : alGet d2 ds' with
  | none => exact dictExcept_set_ne h ds' _ hd
  | some r => exact dictExcept_set_ne h ds' _ hd

theorem dictExcept_applyWrites_eq {ds : String} {n : JVal} (pid now : String) :
    ∀ (ws : List Wrt) {d1 d2 : DDict}, DictExcept ds n d1 d2 →
      (∃ w ∈ ws, w.1 = ds ∧ w.2.1 = n) →
      applyWrites pid now d1 ws = applyWrites pid now d2 ws := by
  intro ws
  induction ws with
  | nil => intro d1 d2 h hw; simp at hw
  | cons w rest ih =>
    intro d1 d2 h hw
    by_cases hwds : w.1 = ds ∧ w.2.1 = n
    · have hstep : applyWrite pid now d1 w = applyWrite pid now d2 w := by
        unfold applyWrite
        rw [hwds.1, hwds.2]
        exact dictExcept_update_same pid now h _
      show applyWrites pid now (applyWrite pid now d1 w) rest =
        applyWrites pid now (applyWrite pid now d2 w) rest
      rw [hstep]
    · have h' : DictExcept ds n (applyWrite pid now d1 w)
          (applyWrite pid now d2 w) := by
        by_cases hd : w.1 = ds
        · have hn : w.2.1 ≠ n := fun hh => hwds ⟨hd, hh⟩
          unfold applyWrite
          rw [hd]
          exact dictExcept_update_other_name pid now h _ _ hn
        · exact dictExcept_update_other_date pid now h _ _ _ hd
      have hw' : ∃ w' ∈ rest, w'.1 = ds ∧ w'.2.1 = n := by
        rcases hw with ⟨w', hmem, hprop⟩
        rcases List.mem_cons.mp hmem with rfl | hmem'
        · exact absurd hprop hwds
        · exact ⟨w', hmem', hprop⟩
      exact ih h' hw'

theorem cellVal_update_same (pid now : String) (d : DDict) (ds : String)
    (n v : JVal) : cellVal (dictUpdate pid now d ds n v) ds n = some v := by
  unfold cellVal dictUpdate
  cases hg : alGet d ds <;> simp [hg, alGet_alSet_self]

theorem cellVal_update_pres (pid now : String) (d : DDict) (ds : String)
    (n : JVal) (ds' : String) (n' v : JVal) (hne : ¬(ds' = ds ∧ n' = n))
    (w : JVal) (hc : cellVal d ds n = some w) :
    cellVal (dictUpdate pid now d ds' n' v) ds n = some w := by
  by_cases hd : ds' = ds
  · subst hd
    have hn : n' ≠ n := fun hh => hne ⟨rfl, hh⟩
    unfold cellVal dictUpdate at *
    cases hg : alGet d ds' with
    | none => rw [hg] at hc; exact absurd hc (by simp)
    | some r =>
      simp only [hg] at hc
      simp [hg, alGet_alSet_self, alGet_alSet_ne r n' n v (Ne.symm hn), hc]
  · unfold cellVal dictUpdate at *
    cases hg : alGet d ds' <;>
      simp_all [alGet_alSet_ne _ ds' ds _ (fun hh => hd hh.symm)]

theorem cellVal_writes_pres (pid now : String) (ds : String) (n w : JVal) :
    ∀ (ws : List Wrt) (d : DDict), cellVal d ds n = some w →
      (∀ x ∈ ws, ¬(x.1 = ds ∧ x.2.1 = n)) →
      cellVal (applyWrites pid now d ws) ds n = some w
  | [], d, hc, _ => hc
  | x :: rest, d, hc, hws => by
    have hx : ¬(x.1 = ds ∧ x.2.1 = n) := hws x (by simp)
    have hc' : cellVal (applyWrite pid now d x) ds n = some w :=
      cellVal_update_pres pid now d ds n x.1 x.2.1 x.2.2 hx w hc
    exact cellVal_writes_pres pid now ds n w rest _ hc'
      (fun y hy => hws y (by simp [hy]))

theorem cellVal_update_isSome (pid now : String) (d : DDict) (ds : String)
    (n : JVal) (ds' : String) (n' v : JVal)
    (h : (cellVal d ds n).isSome = true) :
    (cellVal (dictUpdate pid now d ds' n' v) ds n).isSome = true := by
  by_cases hd : ds' = ds
  · subst hd
    unfold cellVal dictUpdate at *
    cases hg : alGet d ds' with
    | none => rw [hg] at h; simp at h
    | some r =>
      rw [hg] at h
      by_cases hn : n' = n
      · subst hn
        simp [alGet_alSet_self]
      · simp [alGet_alSet_self, alGet_alSet_ne r n' n v (fun hh => hn hh.symm), h]
  · unfold cellVal dictUpdate at *
    cases hg : alGet d ds' <;>
      simp_all [alGet_alSet_ne _ ds' ds _ (fun hh => hd hh.symm)]

theorem cellVal_writes_isSome (pid now : String) (ds : String) (n : JVal) :
    ∀ (ws : List Wrt) (d : DDict), (cellVal d ds n).isSome = true →
      (cellVal (applyWrites pid now d ws) ds n).isSome = true
  | [], _, h => h
  | x :: rest, d, h =>
    cellVal_writes_isSome pid now ds n rest _
      (cellVal_update_isSome pid now d ds n x.1 x.2.1 x.2.2 h)

theorem dictExcept_alSet_get (ds : String) (n : JVal) :
    ∀ (d : DDict) (r r' : DRec), alGet d ds = some r → RecExcept n r' r →
      DictExcept ds n (alSet d ds r') d
  | [], r, r', hg, _ => by simp [alGet] at hg
  | p :: t, r, r', hg, hr => by
    obtain ⟨pk, pv⟩ := p
    by_cases hp : pk = ds
    · subst hp
      simp only [alGet, if_pos rfl] at hg
      cases hg
      simp only [alSet, if_pos rfl]
      exact .head _ _ _ hr
    · simp only [alGet, if_neg hp] at hg
      simp only [alSet, if_neg hp]
      exact .cons (pk, pv) _ _ hp (dictExcept_alSet_get ds n t r r' hg hr)

theorem dictExcept_update_left (pid now : String) (d : DDict) (ds : String)
    (n v : JVal) (h : (cellVal d ds n).isSome = true) :
    DictExcept ds n (dictUpdate pid now d ds n v) d := by
  unfold cellVal at h
  cases hg : alGet d ds with
  | none => rw [hg] at h; simp at h
  | some r =>
    rw [hg] at h
    have hr : RecExcept n (alSet r n v) r :=
      recExcept_alSet_left n v r (by simpa [alHas] using h)
    simp only [dictUpdate, hg]
    exact dictExcept_alSet_get ds n d r _ hg hr

theorem dictUpdate_self (pid now : String) (d : DDict) (ds : String)
    (n v : JVal) (h : cellVal d ds n = some v) :
    dictUpdate pid now d ds n v = d := by
  unfold cellVal at h
  cases hg : alGet d ds with
  | none => rw [hg] at h; simp at h
  | some r =>
    rw [hg] at h
    simp only [dictUpdate, hg]
    rw [alSet_self r n v h]
    exact alSet_self d ds r hg

theorem applyWrites_idem (pid now : String) : ∀ (ws : List Wrt) (d : DDict),
    applyWrites pid now (applyWrites pid now d ws) ws =
      applyWrites pid now d ws
  | [], d => rfl
  | (ds, n, v) :: rest, d => by
    have hE : applyWrites pid now d ((ds, n, v) :: rest) =
        applyWrites pid now (applyWrite pid now d (ds, n, v)) rest := rfl
    have hIH : applyWrites pid now
        (applyWrites pid now (applyWrite pid now d (ds, n, v)) rest) rest =
        applyWrites pid now (applyWrite pid now d (ds, n, v)) rest :=
      applyWrites_idem pid now rest (applyWrite pid now d (ds, n, v))
    rw [hE]
    show applyWrites pid now (applyWrite pid now
        (applyWrites pid now (applyWrite pid now d (ds, n, v)) rest)
        (ds, n, v)) rest =
      applyWrites pid now (applyWrite pid now d (ds, n, v)) rest
    have hcell0 : (cellVal (applyWrite pid now d (ds, n, v)) ds n).isSome
        = true := by
      simp [applyWrite, cellVal_update_same]
    have hcell : (cellVal (applyWrites pid now
        (applyWrite pid now d (ds, n, v)) rest) ds n).isSome = true :=
      cellVal_writes_isSome pid now ds n rest _ hcell0
    by_cases hhit : ∃ x ∈ rest, x.1 = ds ∧ x.2.1 = n
    · have hde : DictExcept ds n
          (applyWrite pid now (applyWrites pid now
            (applyWrite pid now d (ds, n, v)) rest) (ds, n, v))
          (applyWrites pid now (applyWrite pid now d (ds, n, v)) rest) :=
        dictExcept_update_left pid now _ ds n v hcell
      rw [dictExcept_applyWrites_eq pid now rest hde hhit]
      exact hIH
    · have hv : cellVal (applyWrites pid now
          (applyWrite pid now d (ds, n, v)) rest) ds n = some v := by
        apply cellVal_writes_pres pid now ds n v rest _
        · simpa [applyWrite] using cellVal_update_same pid now d ds n v
        · intro x hx hc
          exact hhit ⟨x, hx, hc⟩
      rw [show applyWrite pid now (applyWrites pid now
          (applyWrite pid now d (ds, n, v)) rest) (ds, n, v) =
          applyWrites pid now (applyWrite pid now d (ds, n, v)) rest from
        dictUpdate_self pid now _ ds n v hv]
      exact hIH

theorem foldOpt_flattenStep_idem (fromiso : String → Option String)
    (pid now : String) (items : List JVal) (e : DDict)
    (h : foldOpt (flattenStep fromiso pid now) [] items = some e) :
    foldOpt (flattenStep fromiso pid now) [] (items ++ items) = some e := by
  rw [foldOpt_flattenStep_eq] at h ⊢
  cases ha : allWrites fromiso items with
  | none => rw [ha] at h; simp at h
  | some ws =>
    rw [ha] at h
    simp only [Option.map_some'] at h
    simp only [allWrites_append, ha, Option.map_some']
    rw [applyWrites_append, applyWrites_idem, h]

theorem cellVal_lastWrite (pid now : String) (pre post : List Wrt)
    (ds : String) (n v : JVal)
    (hpost : ∀ x ∈ post, ¬(x.1 = ds ∧ x.2.1 = n)) :
    cellVal (applyWrites pid now [] (pre ++ (ds, n, v) :: post)) ds n
      = some v := by
  rw [applyWrites_append]
  show cellVal (applyWrites pid now (applyWrite pid now
    (applyWrites pid now [] pre) (ds, n, v)) post) ds n = some v
  exact cellVal_writes_pres pid now ds n v post _
    (by simpa [applyWrite] using
      cellVal_update_same pid now (applyWrites pid now [] pre) ds n v) hpost

/-! Claim theorems. -/

/-- C6: the metric-series flattener is deterministic and idempotent — with
the extraction timestamp held fixed, feeding the same sequence of
metric-response objects twice yields exactly the records of a single pass —
and when the same metric name is written more than once for the same date,
the value appearing later in input order is the one retained. -/
theorem fb_C6 :
    (∀ (fromiso : String → Option String) (pid now : String)
       (items : List JVal) (out : List DRec),
       flatten_daily_metrics_inner fromiso pid now items = some out →
       flatten_daily_metrics_inner fromiso pid now (items ++ items) =
         some out) ∧
    (∀ (fromiso : String → Option String) (pid now : String)
       (items : List JVal) (dd : DDict) (ws pre post : List Wrt)
       (ds : String) (n v : JVal),
       foldOpt (flattenStep fromiso pid now) [] items = some dd →
       allWrites fromiso items = some ws →
       ws = pre ++ (ds, n, v) :: post →
       (∀ x ∈ post, ¬(x.1 = ds ∧ x.2.1 = n)) →
       cellVal dd ds n = some v) := by
  constructor
  · intro fromiso pid now items out h
    unfold flatten_daily_metrics_inner at h ⊢
    cases hf : foldOpt (flattenStep fromiso pid now) [] items with
    | none => rw [hf] at h; exact absurd h (by simp)
    | some e =>
      simp only [hf] at h
      simp only [foldOpt_flattenStep_idem fromiso pid now items e hf]
      exact h
  · intro fromiso pid now items dd ws pre post ds n v hf ha hws hpost
    rw [foldOpt_flattenStep_eq, ha] at hf
    simp only [Option.map_some'] at hf
    cases hf
    subst hws
    exact cellVal_lastWrite pid now pre post ds n v hpost

/-- Witness for C6 at a duplicated concrete stream containing a repeated
metric+date value-point. -/
theorem fb_C6_witness :
    (∃ out, flatten_daily_metrics_inner isoStub "pg" "T0" [lwwItem] =
        some out ∧
      flatten_daily_metrics_inner isoStub "pg" "T0" ([lwwItem] ++ [lwwItem]) =
        some out) ∧
    (∃ dd, foldOpt (flattenStep isoStub "pg" "T0") [] [lwwItem] = some dd ∧
      cellVal dd "2024-01-02" (.str "m") = some (.num 2)) := by
  constructor
  · refine ⟨_, rfl, ?_⟩
    exact fb_C6.1 isoStub "pg" "T0" [lwwItem] _ rfl
  · refine ⟨_, rfl, ?_⟩
    exact fb_C6.2 isoStub "pg" "T0" [lwwItem] _
      [("2024-01-02", .str "m", .num 1), ("2024-01-02", .str "m", .num 2)]
      [("2024-01-02", .str "m", .num 1)] [] "2024-01-02" (.str "m") (.num 2)
      rfl (by decide) rfl (by simp)

/-- C5: a value-point whose `end_time` is a string that fails to parse is
skipped without raising, and the flattener's outcome on the whole stream is
exactly as if that value-point were absent — every sibling value-point is
still processed. -/
theorem fb_C5 (fromiso : String → Option String) (pid now : String)
    (l1 l2 : List JVal) (nm p : JVal) (vs1 vs2 : List JVal)
    (f : List (String × JVal)) (s : String) (d : DDict)
    (he : rget f "end_time" JVal.null = .str s)
    (hf : fromiso (replaceZ s) = none) :
    valStep fromiso pid now nm d (.obj f) = some d ∧
    flatten_daily_metrics_inner fromiso pid now
        (l1 ++ .obj [("name", nm), ("period", p),
          ("values", .arr (vs1 ++ .obj f :: vs2))] :: l2) =
      flatten_daily_metrics_inner fromiso pid now
        (l1 ++ .obj [("name", nm), ("period", p),
          ("values", .arr (vs1 ++ vs2))] :: l2) := by
  have hpw : pointWrites fromiso nm (.obj f) = some [] := by
    by_cases hs : truthy (rget f "end_time" JVal.null) = true
    · rw [he] at hs
      simp [pointWrites, he, hs, hf]
    · simp [pointWrites, hs]
  have h1 : valStep fromiso pid now nm d (.obj f) = some d := by
    rw [valStep_eq_pointWrites, hpw]
    rfl
  refine ⟨h1, ?_⟩
  have hv : ∀ nm', valsWrites fromiso nm' (vs1 ++ .obj f :: vs2) =
      valsWrites fromiso nm' (vs1 ++ vs2) := by
    intro nm'
    by_cases hnm : nm' = nm
    · subst hnm
      rw [valsWrites_append, valsWrites_append]
      have hh : valsWrites fromiso nm' (.obj f :: vs2) =
          valsWrites fromiso nm' vs2 := by
        simp only [valsWrites, hpw]
        cases valsWrites fromiso nm' vs2 <;> simp
      rw [hh]
    · rw [valsWrites_append, valsWrites_append]
      have hpw' : pointWrites fromiso nm' (.obj f) = some [] := by
        by_cases hs : truthy (rget f "end_time" JVal.null) = true
        · rw [he] at hs
          simp [pointWrites, he, hs, hf]
        · simp [pointWrites, hs]
      have hh : valsWrites fromiso nm' (.obj f :: vs2) =
          valsWrites fromiso nm' vs2 := by
        simp only [valsWrites, hpw']
        cases valsWrites fromiso nm' vs2 <;> simp
      rw [hh]
  have hitem : itemWrites fromiso
      (.obj [("name", nm), ("period", p),
        ("values", .arr (vs1 ++ .obj f :: vs2))]) =
    itemWrites fromiso
      (.obj [("name", nm), ("period", p),
        ("values", .arr (vs1 ++ vs2))]) := by
    by_cases hp : p = .str "day"
    · subst hp
      cases hvs : vs1 ++ vs2 with
      | nil =>
        have hv1 : vs1 = [] := by
          cases vs1 with
          | nil => rfl
          | cons a t => simp at hvs
        have hv2 : vs2 = [] := by
          rw [hv1] at hvs
          simpa using hvs
        subst hv1; subst hv2
        simp [itemWrites, rget, alGet, hpw, truthy, valsWrites]
      | cons x xs =>
        have hne1 : (vs1 ++ .obj f :: vs2) ≠ [] := by simp
        have hne2 : (vs1 ++ vs2) ≠ [] := by rw [hvs]; simp
        simp [itemWrites, rget, alGet, hne1, hne2, hv, truthy, hvs]
    · simp [itemWrites, rget, alGet, hp]
  have hall : allWrites fromiso
      (l1 ++ .obj [("name", nm), ("period", p),
        ("values", .arr (vs1 ++ .obj f :: vs2))] :: l2) =
    allWrites fromiso
      (l1 ++ .obj [("name", nm), ("period", p),
        ("values", .arr (vs1 ++ vs2))] :: l2) := by
    rw [allWrites_append, allWrites_append]
    have hh : allWrites fromiso (.obj [("name", nm), ("period", p),
          ("values", .arr (vs1 ++ .obj f :: vs2))] :: l2) =
        allWrites fromiso (.obj [("name", nm), ("period", p),
          ("values", .arr (vs1 ++ vs2))] :: l2) := by
      simp only [allWrites, hitem]
    rw [hh]
  unfold flatten_daily_metrics_inner
  rw [foldOpt_flattenStep_eq, foldOpt_flattenStep_eq, hall]

/-- Witness for C5: a `"not-a-date"` value-point is dropped while its
sibling value-point is still grouped. -/
theorem fb_C5_witness :
    valStep isoStub "pg" "T0" (.str "m") []
        (.obj [("end_time", .str "not-a-date"), ("value", .num 9)]) =
      some [] ∧
    flatten_daily_metrics_inner isoStub "pg" "T0"
        ([] ++ .obj [("name", .str "m"), ("period", .str "day"),
          ("values", .arr ([] ++ .obj [("end_time", .str "not-a-date"),
              ("value", .num 9)] ::
            [.obj [("end_time", .str "2024-01-02T00:00:00Z"),
              ("value", .num 7)]]))] :: []) =
      flatten_daily_metrics_inner isoStub "pg" "T0"
        ([] ++ .obj [("name", .str "m"), ("period", .str "day"),
          ("values", .arr ([] ++
            [.obj [("end_time", .str "2024-01-02T00:00:00Z"),
              ("value", .num 7)]]))] :: []) :=
  fb_C5 isoStub "pg" "T0" [] [] (.str "m") (.str "day") []
    [.obj [("end_time", .str "2024-01-02T00:00:00Z"), ("value", .num 7)]]
    [("end_time", .str "not-a-date"), ("value", .num 9)] "not-a-date" []
    (by decide) (by decide)

/-- Counterexample to C7 as stated: a metric-response object with no
`period` field at all still contributes its value-point to an emitted date
record, because the code defaults a missing period to `"day"`. -/
theorem fb_C7_cex :
    ∃ out, flatten_daily_metrics_inner isoStub "pg" "T0" [periodlessItem] =
        some out ∧
      ∃ r, r ∈ out ∧ alGet r (.str "m") = some (.num 7) := by
  refine ⟨_, rfl, _, List.mem_cons_self _ _, ?_⟩
  decide

/-- C7 (amended): the flattener processes only metric-response objects
whose period — defaulting to `"day"` when the field is absent — equals
`"day"`; an object whose period field is present with any other value
contributes no value-points to any emitted date record. -/
theorem fb_C7 (fromiso : String → Option String) (pid now : String)
    (fields : List (String × JVal)) (d : DDict) (l1 l2 : List JVal)
    (hp : rget fields "period" (.str "day") ≠ .str "day") :
    flattenStep fromiso pid now d (.obj fields) = some d ∧
    flatten_daily_metrics_inner fromiso pid now (l1 ++ .obj fields :: l2) =
      flatten_daily_metrics_inner fromiso pid now (l1 ++ l2) := by
  constructor
  · simp [flattenStep, hp]
  · have hitem : itemWrites fromiso (.obj fields) = some [] := by
      simp [itemWrites, hp]
    have hall : allWrites fromiso (l1 ++ .obj fields :: l2) =
        allWrites fromiso (l1 ++ l2) := by
      rw [allWrites_append, allWrites_append]
      have hh : allWrites fromiso (.obj fields :: l2) =
          allWrites fromiso l2 := by
        simp only [allWrites, hitem]
        cases allWrites fromiso l2 <;> simp
      rw [hh]
    unfold flatten_daily_metrics_inner
    rw [foldOpt_flattenStep_eq, foldOpt_flattenStep_eq, hall]

/-- Witness for C7 (amended) at a `"week"`-period object. -/
theorem fb_C7_witness :
    flattenStep isoStub "pg" "T0" []
        (.obj [("name", .str "m"), ("period", .str "week"),
          ("values", .arr [.obj [("end_time", .str "2024-01-02T00:00:00Z"),
            ("value", .num 7)]])]) = some [] ∧
    flatten_daily_metrics_inner isoStub "pg" "T0"
        ([] ++ .obj [("name", .str "m"), ("period", .str "week"),
          ("values", .arr [.obj [("end_time", .str "2024-01-02T00:00:00Z"),
            ("value", .num 7)]])] :: []) =
      flatten_daily_metrics_inner isoStub "pg" "T0" ([] ++ []) :=
  fb_C7 isoStub "pg" "T0"
    [("name", .str "m"), ("period", .str "week"),
     ("values", .arr [.obj [("end_time", .str "2024-01-02T00:00:00Z"),
       ("value", .num 7)]])] [] [] [] (by decide)

/-! Lemmas about the fan-out resource. -/

theorem alHas_alSet_of_has [DecidableEq κ] (l : List (κ × α)) (k0 : κ) (v : α)
    (h : alHas l k0 = true) (k : κ) : alHas (alSet l k0 v) k = alHas l k := by
  rw [alHas_alSet]
  by_cases hk : k = k0
  · subst hk
    simp [h]
  · simp [hk]

theorem updPost_cases (r m r' : Rec) (h : updPost r m = some r') :
    r' = r ∨ ∃ k0 v, alHas r k0 = true ∧ rget m "name" JVal.null = .str k0 ∧
      r' = alSet r k0 v := by
  cases hv : rget m "values" (JVal.arr []) with
  | arr vs =>
    cases vs with
    | nil =>
      left
      simp [updPost, hv, truthy] at h
      exact h.symm
    | cons v0 vt =>
      cases v0 with
      | obj f =>
        cases hn : rget m "name" JVal.null with
        | str k0 =>
          by_cases hk : alHas r k0 = true
          · right
            simp [updPost, hv, hn, truthy, hk] at h
            exact ⟨k0, rget f "value" JVal.null, hk, rfl, h.symm⟩
          · left
            simp [updPost, hv, hn, truthy, hk] at h
            exact h.symm
        | null => left; simp [updPost, hv, hn, truthy] at h; exact h.symm
        | bool b => left; simp [updPost, hv, hn, truthy] at h; exact h.symm
        | num n => left; simp [updPost, hv, hn, truthy] at h; exact h.symm
        | arr a => left; simp [updPost, hv, hn, truthy] at h; exact h.symm
        | obj o => left; simp [updPost, hv, hn, truthy] at h; exact h.symm
      | null => simp [updPost, hv, truthy] at h
      | bool b => simp [updPost, hv, truthy] at h
      | num n => simp [updPost, hv, truthy] at h
      | str s => simp [updPost, hv, truthy] at h
      | arr a => simp [updPost, hv, truthy] at h
  | null =>
    left
    simp [updPost, hv, truthy] at h
    exact h.symm
  | bool b =>
    cases b with
    | true => simp [updPost, hv, truthy] at h
    | false => left; simp [updPost, hv, truthy] at h; exact h.symm
  | num n =>
    by_cases hn0 : n = 0
    · left
      simp [updPost, hv, truthy, hn0] at h
      exact h.symm
    · simp [updPost, hv, truthy, hn0] at h
  | str s =>
    by_cases hs : s.isEmpty = true
    · left
      simp [updPost, hv, truthy, hs] at h
      exact h.symm
    · simp [updPost, hv, truthy, hs] at h
  | obj fs =>
    cases fs with
    | nil => left; simp [updPost, hv, truthy] at h; exact h.symm
    | cons p t => simp [updPost, hv, truthy] at h

theorem updPost_isSome (r m : Rec) (h : metricOk m = true) :
    ∃ r', updPost r m = some r' := by
  simp only [metricOk] at h
  cases hv : rget m "values" (JVal.arr []) with
  | arr vs =>
    cases vs with
    | nil => exact ⟨r, by simp [updPost, hv, truthy]⟩
    | cons v0 vt =>
      rw [hv] at h
      cases v0 with
      | obj f =>
        cases hn : rget m "name" JVal.null with
        | str k =>
          by_cases hk : alHas r k = true
          · exact ⟨alSet r k (rget f "value" JVal.null),
              by simp [updPost, hv, hn, truthy, hk]⟩
          · exact ⟨r, by simp [updPost, hv, hn, truthy, hk]⟩
        | null => exact ⟨r, by simp [updPost, hv, hn, truthy]⟩
        | bool b => exact ⟨r, by simp [updPost, hv, hn, truthy]⟩
        | num n => exact ⟨r, by simp [updPost, hv, hn, truthy]⟩
        | arr a => exact ⟨r, by simp [updPost, hv, hn, truthy]⟩
        | obj o => exact ⟨r, by simp [updPost, hv, hn, truthy]⟩
      | null => simp at h
      | bool b => simp at h
      | num n => simp at h
      | str s => simp at h
      | arr a => simp at h
  | null => exact ⟨r, by simp [updPost, hv, truthy]⟩
  | bool b =>
    rw [hv] at h
    cases b with
    | true => simp [truthy] at h
    | false => exact ⟨r, by simp [updPost, hv, truthy]⟩
  | num n =>
    rw [hv] at h
    simp only [truthy] at h
    by_cases hn0 : n = 0
    · exact ⟨r, by simp [updPost, hv, truthy, hn0]⟩
    · simp [hn0] at h
  | str s =>
    rw [hv] at h
    simp only [truthy, Bool.not_not] at h
    exact ⟨r, by simp [updPost, hv, truthy, h]⟩
  | obj fs =>
    rw [hv] at h
    cases fs with
    | nil => exact ⟨r, by simp [updPost, hv, truthy]⟩
    | cons p t => simp [truthy] at h

theorem foldOpt_updPost_isSome (ms : List Rec) (r : Rec)
    (h : ∀ m ∈ ms, metricOk m = true) :
    ∃ r', foldOpt updPost r ms = some r' := by
  induction ms generalizing r with
  | nil => exact ⟨r, rfl⟩
  | cons m t ih =>
    obtain ⟨r1, hr1⟩ := updPost_isSome r m (h m (by simp))
    obtain ⟨r', hr'⟩ := ih r1 (fun x hx => h x (by simp [hx]))
    exact ⟨r', by simp [foldOpt, hr1, hr']⟩

theorem updPost_alHas (r m r' : Rec) (h : updPost r m = some r')
    (k : String) : alHas r' k = alHas r k := by
  rcases updPost_cases r m r' h with rfl | ⟨k0, v, hk0, hn, rfl⟩
  · rfl
  · exact alHas_alSet_of_has r k0 v hk0 k

theorem updPost_alGet_ne (r m r' : Rec) (h : updPost r m = some r')
    (k : String) (hk : rget m "name" JVal.null ≠ .str k) :
    alGet r' k = alGet r k := by
  rcases updPost_cases r m r' h with rfl | ⟨k0, v, hk0, hn, rfl⟩
  · rfl
  · refine alGet_alSet_ne r k0 k v ?_
    intro hh
    subst hh
    exact hk hn

theorem foldOpt_updPost_alHas (ms : List Rec) (r r' : Rec)
    (h : foldOpt updPost r ms = some r') (k : String) :
    alHas r' k = alHas r k := by
  induction ms generalizing r with
  | nil =>
    simp only [foldOpt] at h
    cases h
    rfl
  | cons m t ih =>
    simp only [foldOpt] at h
    cases hu : updPost r m with
    | none => rw [hu] at h; simp at h
    | some r1 =>
      rw [hu] at h
      exact (ih r1 h).trans (updPost_alHas r m r1 hu k)

theorem foldOpt_updPost_alGet_ne (ms : List Rec) (r r' : Rec)
    (h : foldOpt updPost r ms = some r') (k : String)
    (hk : ∀ m ∈ ms, rget m "name" JVal.null ≠ .str k) :
    alGet r' k = alGet r k := by
  induction ms generalizing r with
  | nil =>
    simp only [foldOpt] at h
    cases h
    rfl
  | cons m t ih =>
    simp only [foldOpt] at h
    cases hu : updPost r m with
    | none => rw [hu] at h; simp at h
    | some r1 =>
      rw [hu] at h
      exact (ih r1 h (fun x hx => hk x (by simp [hx]))).trans
        (updPost_alGet_ne r m r1 hu k (hk m (by simp)))

theorem baseRecord_get_post_id (pid : JVal) (ds nw : String) :
    alGet (baseRecord pid ds nw) "post_id" = some pid := rfl

theorem baseRecord_get_date (pid : JVal) (ds nw : String) :
    alGet (baseRecord pid ds nw) "date" = some (.str ds) := by
  simp [baseRecord, alGet]

theorem baseRecord_get_extracted (pid : JVal) (ds nw : String) :
    alGet (baseRecord pid ds nw) "_extracted_at" = some (.str nw) := by
  simp [baseRecord, alGet]

theorem baseRecord_get_catalog (pid : JVal) (ds nw : String) (k : String)
    (hk : k ∈ post_metrics_catalog) :
    alGet (baseRecord pid ds nw) k = some JVal.null := by
  fin_cases hk <;> rfl

theorem baseRecord_has_catalog (pid : JVal) (ds nw : String) (k : String)
    (hk : k ∈ post_metrics_catalog) :
    alHas (baseRecord pid ds nw) k = true := by
  simp [alHas, baseRecord_get_catalog pid ds nw k hk]

theorem processPost_fetch_none (fromiso : String → Option String)
    (today now : String) (fetch : JVal → Option (List Rec)) (post : Rec)
    (pid : JVal) (hid : alGet post "id" = some pid) (hf : fetch pid = none) :
    processPost fromiso today now fetch post =
      some (baseRecord pid
        (deriveDate fromiso today (rget post "created_time" JVal.null)) now) := by
  simp [processPost, hid, hf]

theorem processPost_fetch_some (fromiso : String → Option String)
    (today now : String) (fetch : JVal → Option (List Rec)) (post : Rec)
    (pid : JVal) (ms : List Rec) (hid : alGet post "id" = some pid)
    (hf : fetch pid = some ms) :
    processPost fromiso today now fetch post =
      foldOpt updPost (baseRecord pid
        (deriveDate fromiso today (rget post "created_time" JVal.null)) now)
        ms := by
  simp [processPost, hid, hf]

theorem processPost_isSome (fromiso : String → Option String)
    (today now : String) (fetch : JVal → Option (List Rec)) (post : Rec)
    (hid : alHas post "id" = true)
    (hok : ∀ pid ms, fetch pid = some ms → ∀ m ∈ ms, metricOk m = true) :
    ∃ r, processPost fromiso today now fetch post = some r := by
  obtain ⟨pid, hpid⟩ := (alHas_true_iff post "id").mp hid
  cases hf : fetch pid with
  | none => exact ⟨_, processPost_fetch_none fromiso today now fetch post pid
      hpid hf⟩
  | some ms =>
    obtain ⟨r', hr'⟩ := foldOpt_updPost_isSome ms
      (baseRecord pid
        (deriveDate fromiso today (rget post "created_time" JVal.null)) now)
      (hok pid ms hf)
    refine ⟨r', ?_⟩
    rw [processPost_fetch_some fromiso today now fetch post pid ms hpid hf]
    exact hr'

/-- C1: the fan-out resource emits exactly one record per listed post —
the output length equals the number of listed posts — for every pattern of
per-post metrics-call outcomes, including the one where every call fails. -/
theorem fb_C1 (fromiso : String → Option String) (today now : String)
    (fetch : JVal → Option (List Rec)) (posts : List Rec)
    (hid : ∀ p ∈ posts, alHas p "id" = true)
    (hok : ∀ pid ms, fetch pid = some ms → ∀ m ∈ ms, metricOk m = true) :
    ∃ out, post_metrics_resource fromiso today now fetch posts = some out ∧
      out.length = posts.length := by
  obtain ⟨out, hout⟩ := mapOpt_isSome (processPost fromiso today now fetch)
    posts (fun p hp => by
      obtain ⟨r, hr⟩ := processPost_isSome fromiso today now fetch p
        (hid p hp) hok
      simp [hr])
  exact ⟨out, hout, mapOpt_length _ _ _ hout⟩

/-- Witness for C1: two listed posts, every per-post metrics call failing;
two records are emitted. -/
theorem fb_C1_witness :
    ∃ out, post_metrics_resource isoStub "2024-02-01" "T0" (fun _ => none)
        [post0, post1] = some out ∧
      out.length = [post0, post1].length :=
  fb_C1 isoStub "2024-02-01" "T0" (fun _ => none) [post0, post1]
    (by decide) (fun pid ms h => by simp at h)

/-! Lemmas about the missing-metrics union fold. -/

theorem fillFold_pres_has : ∀ (cat : List String) (r : DRec) (q : JVal),
    alHas r q = true →
    alHas (cat.foldl (fun acc k =>
      if alHas acc (JVal.str k) then acc
      else alSet acc (JVal.str k) JVal.null) r) q = true := by
  intro cat
  induction cat with
  | nil => intro r q h; exact h
  | cons c t ih =>
    intro r q h
    simp only [List.foldl_cons]
    by_cases hc : alHas r (JVal.str c) = true
    · rw [if_pos hc]
      exact ih r q h
    · rw [if_neg hc]
      refine ih _ q ?_
      rw [alHas_alSet]
      simp [h]

theorem fillFold_has : ∀ (cat : List String) (r : DRec) (k : String),
    k ∈ cat →
    alHas (cat.foldl (fun acc k =>
      if alHas acc (JVal.str k) then acc
      else alSet acc (JVal.str k) JVal.null) r) (JVal.str k) = true := by
  intro cat
  induction cat with
  | nil => intro r k h; simp at h
  | cons c t ih =>
    intro r k hk
    simp only [List.foldl_cons]
    rcases List.mem_cons.mp hk with rfl | hkt
    · by_cases hc : alHas r (JVal.str k) = true
      · rw [if_pos hc]
        exact fillFold_pres_has t r _ hc
      · rw [if_neg hc]
        refine fillFold_pres_has t _ _ ?_
        rw [alHas_alSet]
        simp
    · by_cases hc : alHas r (JVal.str c) = true
      · rw [if_pos hc]
        exact ih r k hkt
      · rw [if_neg hc]
        exact ih _ k hkt

theorem fillFold_get_pres : ∀ (cat : List String) (r : DRec) (q : JVal),
    alHas r q = true →
    alGet (cat.foldl (fun acc k =>
      if alHas acc (JVal.str k) then acc
      else alSet acc (JVal.str k) JVal.null) r) q = alGet r q := by
  intro cat
  induction cat with
  | nil => intro r q _; rfl
  | cons c t ih =>
    intro r q h
    simp only [List.foldl_cons]
    by_cases hc : alHas r (JVal.str c) = true
    · rw [if_pos hc]
      exact ih r q h
    · rw [if_neg hc]
      have hq : q ≠ JVal.str c := by
        intro hh
        rw [hh] at h
        exact absurd h (by simp [hc])
      rw [ih _ q (by rw [alHas_alSet]; simp [h])]
      exact alGet_alSet_ne r (JVal.str c) q JVal.null hq

theorem fillFold_get_null : ∀ (cat : List String) (r : DRec) (k : String),
    k ∈ cat → alHas r (JVal.str k) = false →
    alGet (cat.foldl (fun acc k =>
      if alHas acc (JVal.str k) then acc
      else alSet acc (JVal.str k) JVal.null) r) (JVal.str k)
      = some JVal.null := by
  intro cat
  induction cat with
  | nil => intro r k h _; simp at h
  | cons c t ih =>
    intro r k hk hno
    simp only [List.foldl_cons]
    by_cases hck : c = k
    · subst hck
      rw [if_neg (by simp [hno])]
      rw [fillFold_get_pres t _ _ (by rw [alHas_alSet]; simp)]
      exact alGet_alSet_self r (JVal.str c) JVal.null
    · rcases List.mem_cons.mp hk with rfl | hkt
      · exact absurd rfl hck
      · by_cases hc : alHas r (JVal.str c) = true
        · rw [if_pos hc]
          exact ih r k hkt hno
        · rw [if_neg hc]
          refine ih _ k hkt ?_
          rw [alHas_alSet]
          simp only [hno, Bool.or_false]
          simp [Ne.symm hck]

/-- C2: every emitted daily record carries every metric of the fixed daily
catalog and every emitted post record carries every column of the fixed
post-metrics catalog; the union step fills absent catalog metrics with
null and never overwrites a value that was found, and a post-catalog
metric not named in the per-post response stays null. -/
theorem fb_C2 :
    (∀ (fromiso : String → Option String) (pid now : String)
       (items : List JVal) (out : List DRec),
       flatten_daily_metrics_inner fromiso pid now items = some out →
       ∀ r ∈ out, ∀ k ∈ missing_metrics, alHas r (JVal.str k) = true) ∧
    (∀ (r : DRec) (q : JVal), alHas r q = true →
       alGet (fillMissing r) q = alGet r q) ∧
    (∀ (r : DRec) (k : String), k ∈ missing_metrics →
       alHas r (JVal.str k) = false →
       alGet (fillMissing r) (JVal.str k) = some JVal.null) ∧
    (∀ (fromiso : String → Option String) (today now : String)
       (fetch : JVal → Option (List Rec)) (posts out : List Rec),
       post_metrics_resource fromiso today now fetch posts = some out →
       ∀ r ∈ out, ∀ k ∈ post_metrics_catalog, alHas r k = true) ∧
    (∀ (fromiso : String → Option String) (today now : String)
       (fetch : JVal → Option (List Rec)) (post : Rec) (pid : JVal)
       (r : Rec) (k : String),
       alGet post "id" = some pid →
       processPost fromiso today now fetch post = some r →
       k ∈ post_metrics_catalog →
       (∀ ms, fetch pid = some ms →
         ∀ m ∈ ms, rget m "name" JVal.null ≠ JVal.str k) →
       alGet r k = some JVal.null) := by
  refine ⟨?_, ?_, ?_, ?_, ?_⟩
  · intro fromiso pid now items out h r hr k hk
    unfold flatten_daily_metrics_inner at h
    cases hf : foldOpt (flattenStep fromiso pid now) [] items with
    | none => rw [hf] at h; simp at h
    | some d =>
      simp only [hf] at h
      cases h
      obtain ⟨p, hp, rfl⟩ := List.mem_map.mp hr
      exact fillFold_has missing_metrics p.2 k hk
  · intro r q h
    exact fillFold_get_pres missing_metrics r q h
  · intro r k hk hno
    exact fillFold_get_null missing_metrics r k hk hno
  · intro fromiso today now fetch posts out h r hr k hk
    obtain ⟨p, hp, hpr⟩ := mapOpt_mem _ posts out h r hr
    unfold processPost at hpr
    cases hid : alGet p "id" with
    | none => rw [hid] at hpr; simp at hpr
    | some pid =>
      simp only [hid] at hpr
      cases hf : fetch pid with
      | none =>
        simp only [hf] at hpr
        cases hpr
        exact baseRecord_has_catalog pid _ now k hk
      | some ms =>
        simp only [hf] at hpr
        rw [foldOpt_updPost_alHas ms _ r hpr k]
        exact baseRecord_has_catalog pid _ now k hk
  · intro fromiso today now fetch post pid r k hid hr hk hnone
    cases hf : fetch pid with
    | none =>
      rw [processPost_fetch_none fromiso today now fetch post pid hid hf] at hr
      cases hr
      exact baseRecord_get_catalog pid _ now k hk
    | some ms =>
      rw [processPost_fetch_some fromiso today now fetch post pid ms hid hf]
        at hr
      rw [foldOpt_updPost_alGet_ne ms _ r hr k (hnone ms hf)]
      exact baseRecord_get_catalog pid _ now k hk

/-- Witness for C2 at concrete daily and post runs. -/
theorem fb_C2_witness :
    (∃ out, flatten_daily_metrics_inner isoStub "pg" "T0" [lwwItem] =
        some out ∧
      ∀ r ∈ out, alHas r (JVal.str "page_video_view_time") = true) ∧
    alGet (fillMissing [(JVal.str "m", JVal.num 7)]) (JVal.str "m") =
      alGet [(JVal.str "m", JVal.num 7)] (JVal.str "m") ∧
    alGet (fillMissing []) (JVal.str "page_video_views_paid") =
      some JVal.null ∧
    (∃ out, post_metrics_resource isoStub "2024-02-01" "T0" fetchClicks
        [post0] = some out ∧
      ∀ r ∈ out, alHas r "post_impressions" = true) ∧
    (∃ r, processPost isoStub "2024-02-01" "T0" fetchClicks post0 = some r ∧
      alGet r "post_impressions" = some JVal.null) := by
  refine ⟨⟨_, rfl, fun r hr => fb_C2.1 isoStub "pg" "T0" [lwwItem] _ rfl r hr
      "page_video_view_time" (by decide)⟩,
    fb_C2.2.1 [(JVal.str "m", JVal.num 7)] (JVal.str "m") (by decide),
    fb_C2.2.2.1 [] "page_video_views_paid" (by decide) (by decide),
    ⟨_, rfl, fun r hr => fb_C2.2.2.2.1 isoStub "2024-02-01" "T0" fetchClicks
      [post0] _ rfl r hr "post_impressions" (by decide)⟩,
    ⟨_, rfl, fb_C2.2.2.2.2 isoStub "2024-02-01" "T0" fetchClicks post0
      (.str "111_222") _ "post_impressions" (by decide) rfl (by decide)
      (fun ms hms => by
        simp only [fetchClicks] at hms
        cases hms
        intro m hm
        simp only [List.mem_singleton] at hm
        subst hm
        decide)⟩⟩

/-! Lemmas about the post enrichment transform. -/

theorem takeWhile_before_sep : ∀ (pre rest : List Char), '_' ∉ pre →
    (pre ++ '_' :: rest).takeWhile (· ≠ '_') = pre
  | [], rest, _ => by simp
  | c :: t, rest, h => by
    have hc : c ≠ '_' := fun hh => h (hh ▸ List.mem_cons_self c t)
    have ht : '_' ∉ t := fun hm => h (List.mem_cons_of_mem c hm)
    simp only [List.cons_append, List.takeWhile_cons]
    rw [if_pos (by simp [hc])]
    rw [takeWhile_before_sep t rest ht]

theorem charList_contains_true {l : List Char} {c : Char} (h : c ∈ l) :
    l.contains c = true := by
  induction l with
  | nil => simp at h
  | cons a t ih =>
    rcases List.mem_cons.mp h with rfl | ht
    · simp [List.contains_cons]
    · simp only [List.contains_cons, Bool.or_eq_true]
      right
      exact ih ht

theorem charList_contains_false {l : List Char} {c : Char} (h : c ∉ l) :
    l.contains c = false := by
  induction l with
  | nil => rfl
  | cons a t ih =>
    simp only [List.contains_cons, Bool.or_eq_false_iff]
    constructor
    · simp only [beq_eq_false_iff_ne, ne_eq]
      intro hh
      exact h (hh ▸ List.mem_cons_self a t)
    · exact ih (fun hm => h (List.mem_cons_of_mem a hm))

/-- C3: post enrichment — an id containing the separator yields a
`page_id` equal to the prefix before the first `'_'`; an id without the
separator adds no `page_id` key; in both cases `_extracted_at` is stamped
and every other field is unchanged. -/
theorem fb_C3 (now : String) (item : Rec) (s : String)
    (hid : rget item "id" (JVal.str "") = JVal.str s) :
    (∀ pre rest : List Char, s.data = pre ++ '_' :: rest → '_' ∉ pre →
      ∃ out, add_post_fields_item now item = some out ∧
        alGet out "page_id" = some (JVal.str ⟨pre⟩) ∧
        alGet out "_extracted_at" = some (JVal.str now) ∧
        ∀ k : String, k ≠ "page_id" → k ≠ "_extracted_at" →
          alGet out k = alGet item k) ∧
    ('_' ∉ s.data →
      ∃ out, add_post_fields_item now item = some out ∧
        alHas out "page_id" = alHas item "page_id" ∧
        alGet out "page_id" = alGet item "page_id" ∧
        alGet out "_extracted_at" = some (JVal.str now) ∧
        ∀ k : String, k ≠ "_extracted_at" → alGet out k = alGet item k) := by
  constructor
  · intro pre rest hsplit hpre
    have hmem : '_' ∈ s.data := by
      rw [hsplit]
      simp
    refine ⟨alSet (alSet item "page_id"
        (JVal.str ⟨s.data.takeWhile (· ≠ '_')⟩)) "_extracted_at"
        (JVal.str now), ?_, ?_, ?_, ?_⟩
    · simp [add_post_fields_item, hid, hmem]
    · rw [alGet_alSet_ne _ "_extracted_at" "page_id" _ (by decide)]
      rw [alGet_alSet_self]
      rw [hsplit, takeWhile_before_sep pre rest hpre]
    · rw [alGet_alSet_self]
    · intro k hk1 hk2
      rw [alGet_alSet_ne _ "_extracted_at" k _ hk2]
      rw [alGet_alSet_ne _ "page_id" k _ hk1]
  · intro hsep
    refine ⟨alSet item "_extracted_at" (JVal.str now), ?_, ?_, ?_, ?_, ?_⟩
    · simp [add_post_fields_item, hid, hsep]
    · rw [alHas_alSet]
      simp
    · rw [alGet_alSet_ne _ "_extracted_at" "page_id" _ (by decide)]
    · rw [alGet_alSet_self]
    · intro k hk
      rw [alGet_alSet_ne _ "_extracted_at" k _ hk]

/-- Witness for C3: the id "123456_789" gains page_id "123456"; the id
"nopagesep" gains no page_id key. -/
theorem fb_C3_witness :
    (∃ out, add_post_fields_item "T0"
        [("id", .str "123456_789"), ("message", .str "hi")] = some out ∧
      alGet out "page_id" = some (.str "123456") ∧
      alGet out "message" = some (.str "hi")) ∧
    (∃ out, add_post_fields_item "T0" [("id", .str "nopagesep")] =
        some out ∧
      alHas out "page_id" = false ∧
      alGet out "_extracted_at" = some (.str "T0")) := by
  constructor
  · obtain ⟨out, h1, h2, h3, h4⟩ :=
      (fb_C3 "T0" [("id", .str "123456_789"), ("message", .str "hi")]
        "123456_789" (by decide)).1 "123456".data "789".data
        (by decide) (by decide)
    exact ⟨out, h1, h2, h4 "message" (by decide) (by decide)⟩
  · obtain ⟨out, h1, h2, h3, h4, h5⟩ :=
      (fb_C3 "T0" [("id", .str "nopagesep")] "nopagesep" (by decide)).2
        (by decide)
    refine ⟨out, h1, ?_, h4⟩
    rw [h2]
    decide

theorem processPost_congr (fromiso : String → Option String)
    (today now : String) (fetch1 fetch2 : JVal → Option (List Rec))
    (p : Rec) (h : ∀ pid, alGet p "id" = some pid → fetch1 pid = fetch2 pid) :
    processPost fromiso today now fetch1 p =
      processPost fromiso today now fetch2 p := by
  cases hid : alGet p "id" with
  | none =>
    unfold processPost
    rw [hid]
  | some pid =>
    cases hf : fetch1 pid with
    | none =>
      rw [processPost_fetch_none fromiso today now fetch1 p pid hid hf,
        processPost_fetch_none fromiso today now fetch2 p pid hid
          ((h pid hid).symm.trans hf)]
    | some ms =>
      rw [processPost_fetch_some fromiso today now fetch1 p pid ms hid hf,
        processPost_fetch_some fromiso today now fetch2 p pid ms hid
          ((h pid hid).symm.trans hf)]

/-- C4: per-post failure isolation — when the metrics call raises only for
post X (id `xid`), X's record is still emitted with identity fields set and
every metric column null, and every other post's record (and the whole
resource output) is exactly what the non-failing call pattern produces. -/
theorem fb_C4 (fromiso : String → Option String) (today now : String)
    (fetch1 fetch2 : JVal → Option (List Rec)) (l1 l2 : List Rec) (x : Rec)
    (xid : JVal)
    (hxid : alGet x "id" = some xid)
    (hfail : fetch1 xid = none)
    (hagree : ∀ pid, pid ≠ xid → fetch1 pid = fetch2 pid)
    (hothers : ∀ p ∈ l1 ++ l2, alGet p "id" ≠ some xid) :
    processPost fromiso today now fetch1 x =
      some (baseRecord xid
        (deriveDate fromiso today (rget x "created_time" JVal.null)) now) ∧
    (∀ k ∈ post_metrics_catalog,
      alGet (baseRecord xid
        (deriveDate fromiso today (rget x "created_time" JVal.null)) now) k =
        some JVal.null) ∧
    (∀ p ∈ l1 ++ l2, processPost fromiso today now fetch1 p =
      processPost fromiso today now fetch2 p) ∧
    post_metrics_resource fromiso today now fetch1 (l1 ++ x :: l2) =
      (match post_metrics_resource fromiso today now fetch2 l1,
             post_metrics_resource fromiso today now fetch2 l2 with
       | some o1, some o2 => some (o1 ++ baseRecord xid
           (deriveDate fromiso today (rget x "created_time" JVal.null)) now
           :: o2)
       | _, _ => none) := by
  have hcong : ∀ p ∈ l1 ++ l2, processPost fromiso today now fetch1 p =
      processPost fromiso today now fetch2 p := by
    intro p hp
    refine processPost_congr fromiso today now fetch1 fetch2 p ?_
    intro pid hpid
    refine hagree pid ?_
    intro hh
    subst hh
    exact hothers p hp hpid
  have hx : processPost fromiso today now fetch1 x =
      some (baseRecord xid
        (deriveDate fromiso today (rget x "created_time" JVal.null)) now) :=
    processPost_fetch_none fromiso today now fetch1 x xid hxid hfail
  refine ⟨hx, fun k hk => baseRecord_get_catalog xid _ now k hk, hcong, ?_⟩
  unfold post_metrics_resource
  rw [mapOpt_append]
  rw [mapOpt_congr _ _ l1 (fun p hp => hcong p (List.mem_append_left l2 hp))]
  have hxl2 : mapOpt (processPost fromiso today now fetch1) (x :: l2) =
      (mapOpt (processPost fromiso today now fetch2) l2).map
        ((baseRecord xid
          (deriveDate fromiso today (rget x "created_time" JVal.null)) now)
          :: ·) := by
    simp only [mapOpt, hx]
    rw [mapOpt_congr _ _ l2 (fun p hp => hcong p (List.mem_append_right l1 hp))]
  rw [hxl2]
  cases mapOpt (processPost fromiso today now fetch2) l1 <;>
    cases mapOpt (processPost fromiso today now fetch2) l2 <;> simp

/-- Witness for C4: the call fails only for post0's id; post0's record is
the all-null base record and post1's record matches the non-failing run. -/
theorem fb_C4_witness :
    processPost isoStub "2024-02-01" "T0" fetchFailX post0 =
      some (baseRecord (.str "111_222")
        (deriveDate isoStub "2024-02-01"
          (rget post0 "created_time" JVal.null)) "T0") ∧
    (∀ k ∈ post_metrics_catalog,
      alGet (baseRecord (.str "111_222")
        (deriveDate isoStub "2024-02-01"
          (rget post0 "created_time" JVal.null)) "T0") k =
        some JVal.null) ∧
    (∀ p ∈ [post1] ++ [], processPost isoStub "2024-02-01" "T0" fetchFailX p =
      processPost isoStub "2024-02-01" "T0" fetchClicks p) ∧
    post_metrics_resource isoStub "2024-02-01" "T0" fetchFailX
        ([post1] ++ post0 :: []) =
      (match post_metrics_resource isoStub "2024-02-01" "T0" fetchClicks
          [post1],
        post_metrics_resource isoStub "2024-02-01" "T0" fetchClicks [] with
       | some o1, some o2 => some (o1 ++ baseRecord (.str "111_222")
           (deriveDate isoStub "2024-02-01"
             (rget post0 "created_time" JVal.null)) "T0" :: o2)
       | _, _ => none) :=
  fb_C4 isoStub "2024-02-01" "T0" fetchFailX fetchClicks [post1] [] post0
    (.str "111_222") (by decide) (by decide)
    (fun pid h => by simp [fetchFailX, h])
    (by decide)

/-- C8: one successfully returned metric object with a non-empty values
list updates the record with the FIRST value-point's value, and only when
its name is one of the record's keys; any other name leaves the record
unchanged.  The conclusion does not depend on the later value-points. -/
theorem fb_C8 (r m : Rec) (k : String) (f : List (String × JVal))
    (rest : List JVal)
    (hn : rget m "name" JVal.null = JVal.str k)
    (hv : rget m "values" (JVal.arr []) = JVal.arr (JVal.obj f :: rest)) :
    (alHas r k = true →
      updPost r m = some (alSet r k (rget f "value" JVal.null))) ∧
    (alHas r k = false → updPost r m = some r) := by
  constructor
  · intro hk
    simp [updPost, hn, hv, truthy, hk]
  · intro hk
    simp [updPost, hn, hv, truthy, hk]

/-- Witness for C8: a recognized metric takes the first value-point's
value (the second point is ignored); an unrecognized metric changes
nothing. -/
theorem fb_C8_witness :
    updPost [("post_clicks", JVal.null)]
        [("name", .str "post_clicks"),
         ("values", .arr [.obj [("value", .num 5)],
                          .obj [("value", .num 99)]])] =
      some (alSet [("post_clicks", JVal.null)] "post_clicks"
        (rget [("value", JVal.num 5)] "value" JVal.null)) ∧
    updPost [("post_clicks", JVal.null)]
        [("name", .str "post_unknown_metric"),
         ("values", .arr [.obj [("value", .num 5)]])] =
      some [("post_clicks", JVal.null)] :=
  ⟨(fb_C8 [("post_clicks", JVal.null)]
      [("name", .str "post_clicks"),
       ("values", .arr [.obj [("value", .num 5)],
                        .obj [("value", .num 99)]])]
      "post_clicks" [("value", JVal.num 5)] [.obj [("value", .num 99)]]
      (by decide) (by decide)).1 (by decide),
   (fb_C8 [("post_clicks", JVal.null)]
      [("name", .str "post_unknown_metric"),
       ("values", .arr [.obj [("value", .num 5)]])]
      "post_unknown_metric" [("value", JVal.num 5)] []
      (by decide) (by decide)).2 (by decide)⟩

/-- Counterexample to C9 as stated: the per-post metrics call succeeds
with a metric object named "date", which overwrites the derived date, so
the emitted record's date differs from the calendar date parsed from the
post's created_time. -/
theorem fb_C9_cex :
    ∃ r, processPost isoStub "2024-02-01" "T0" fetchIdentity post0 =
        some r ∧
      rget post0 "created_time" JVal.null =
        JVal.str "2024-01-05T10:00:00Z" ∧
      isoStub (replaceZ "2024-01-05T10:00:00Z") = some "2024-01-05" ∧
      alGet r "date" = some (JVal.str "1999-12-31") ∧
      alGet r "date" ≠ some (JVal.str "2024-01-05") := by
  refine ⟨_, rfl, by decide, by decide, by decide, by decide⟩

theorem deriveDate_str_parse (fromiso : String → Option String)
    (today : String) (s d : String) (hs : s ≠ "")
    (hp : fromiso (replaceZ s) = some d) :
    deriveDate fromiso today (JVal.str s) = d := by
  have he : s.isEmpty = false := by
    cases he : s.isEmpty
    · rfl
    · exact absurd ((String.isEmpty_iff s).mp he) hs
  simp [deriveDate, truthy, he, hp]

theorem deriveDate_fallback (fromiso : String → Option String)
    (today : String) (c : JVal)
    (hc : ∀ s, c = JVal.str s → s = "" ∨ fromiso (replaceZ s) = none) :
    deriveDate fromiso today c = today := by
  cases c with
  | str s =>
    rcases hc s rfl with rfl | hp
    · have ht : truthy (JVal.str "") = false := by decide
      simp [deriveDate, ht]
    · by_cases ht : truthy (JVal.str s) = true
      · simp [deriveDate, ht, hp]
      · simp [deriveDate, ht]
  | null => simp [deriveDate, truthy]
  | bool b => cases b <;> simp [deriveDate, truthy]
  | num n =>
    by_cases hn : truthy (JVal.num n) = true
    · simp [deriveDate, hn]
    · simp [deriveDate, hn]
  | arr a =>
    by_cases ht : truthy (JVal.arr a) = true
    · simp [deriveDate, ht]
    · simp [deriveDate, ht]
  | obj o =>
    by_cases ht : truthy (JVal.obj o) = true
    · simp [deriveDate, ht]
    · simp [deriveDate, ht]

/-- C9 (amended): provided the per-post metrics call fails or its
successful response contains no metric object named "date" — in
particular every response consisting of actual post metrics — the emitted
record's date field is the calendar date parsed from the post's
created_time, and it falls back to the current date when created_time is
missing, falsy, non-string, or fails to parse; no error is raised. -/
theorem fb_C9 (fromiso : String → Option String) (today now : String)
    (fetch : JVal → Option (List Rec)) (post : Rec) (pid : JVal)
    (hid : alGet post "id" = some pid)
    (hok : ∀ ms, fetch pid = some ms → ∀ m ∈ ms, metricOk m = true)
    (hnd : ∀ ms, fetch pid = some ms →
      ∀ m ∈ ms, rget m "name" JVal.null ≠ JVal.str "date") :
    ∃ r, processPost fromiso today now fetch post = some r ∧
      alGet r "date" = some (JVal.str
        (deriveDate fromiso today (rget post "created_time" JVal.null))) ∧
      (∀ s d, rget post "created_time" JVal.null = JVal.str s → s ≠ "" →
        fromiso (replaceZ s) = some d →
        alGet r "date" = some (JVal.str d)) ∧
      ((∀ s, rget post "created_time" JVal.null = JVal.str s →
          s = "" ∨ fromiso (replaceZ s) = none) →
        alGet r "date" = some (JVal.str today)) := by
  have hmain : ∃ r, processPost fromiso today now fetch post = some r ∧
      alGet r "date" = some (JVal.str
        (deriveDate fromiso today (rget post "created_time" JVal.null))) := by
    cases hf : fetch pid with
    | none =>
      refine ⟨_, processPost_fetch_none fromiso today now fetch post pid
        hid hf, ?_⟩
      exact baseRecord_get_date pid _ now
    | some ms =>
      obtain ⟨r, hr⟩ := foldOpt_updPost_isSome ms
        (baseRecord pid
          (deriveDate fromiso today (rget post "created_time" JVal.null))
          now) (hok ms hf)
      refine ⟨r, ?_, ?_⟩
      · rw [processPost_fetch_some fromiso today now fetch post pid ms
          hid hf]
        exact hr
      · rw [foldOpt_updPost_alGet_ne ms _ r hr "date" (hnd ms hf)]
        exact baseRecord_get_date pid _ now
  obtain ⟨r, hr, hd⟩ := hmain
  refine ⟨r, hr, hd, ?_, ?_⟩
  · intro s d hs hne hp
    rw [hd, hs, deriveDate_str_parse fromiso today s d hne hp]
  · intro hfall
    rw [hd, deriveDate_fallback fromiso today _ hfall]

/-- Witness for C9 (amended): post0's created_time parses to
"2024-01-05" when the metrics call fails; post1 has no created_time and
falls back to the current date. -/
theorem fb_C9_witness :
    (∃ r, processPost isoStub "2024-02-01" "T0" (fun _ => none) post0 =
        some r ∧
      alGet r "date" = some (JVal.str
        (deriveDate isoStub "2024-02-01"
          (rget post0 "created_time" JVal.null))) ∧
      (∀ s d, rget post0 "created_time" JVal.null = JVal.str s → s ≠ "" →
        isoStub (replaceZ s) = some d →
        alGet r "date" = some (JVal.str d)) ∧
      ((∀ s, rget post0 "created_time" JVal.null = JVal.str s →
          s = "" ∨ isoStub (replaceZ s) = none) →
        alGet r "date" = some (JVal.str "2024-02-01"))) ∧
    (∃ r, processPost isoStub "2024-02-01" "T0" (fun _ => none) post1 =
        some r ∧
      alGet r "date" = some (JVal.str
        (deriveDate isoStub "2024-02-01"
          (rget post1 "created_time" JVal.null))) ∧
      (∀ s d, rget post1 "created_time" JVal.null = JVal.str s → s ≠ "" →
        isoStub (replaceZ s) = some d →
        alGet r "date" = some (JVal.str d)) ∧
      ((∀ s, rget post1 "created_time" JVal.null = JVal.str s →
          s = "" ∨ isoStub (replaceZ s) = none) →
        alGet r "date" = some (JVal.str "2024-02-01"))) :=
  ⟨fb_C9 isoStub "2024-02-01" "T0" (fun _ => none) post0 (.str "111_222")
     (by decide) (fun ms h => by simp at h) (fun ms h => by simp at h),
   fb_C9 isoStub "2024-02-01" "T0" (fun _ => none) post1 (.str "111_333")
     (by decide) (fun ms h => by simp at h) (fun ms h => by simp at h)⟩

/-- C10: recognition of a returned metric name is membership in the whole
record's key set, not the metrics catalog alone: a successful response
carrying metrics named "post_id", "date" and "_extracted_at" overwrites
those identity fields, so the emitted post_id differs from the listed
post's id. -/
theorem fb_C10 :
    ∃ r, processPost isoStub "2024-02-01" "T0" fetchIdentity post0 =
        some r ∧
      alGet post0 "id" = some (JVal.str "111_222") ∧
      alGet r "post_id" = some (JVal.str "EVIL") ∧
      alGet r "date" = some (JVal.str "1999-12-31") ∧
      alGet r "_extracted_at" = some (JVal.str "T9") ∧
      alGet r "post_id" ≠ alGet post0 "id" := by
  refine ⟨_, rfl, by decide, by decide, by decide, by decide, by decide⟩
